import Mathlib

/-!
Shallow embedding of the GPU memory sub-allocation layer of vengine-rs
(`src/memory/memory_manager.rs`), together with a spec-derived model of the
memory-chunk component (`VEMemoryChunk`), whose source file is not part of the
visible sources; only its use by `VEMemoryManager` and the specification
describe it.

Machine integers (`u32` memory-type indices, `u64` sizes/offsets/identifiers)
are modelled as `Nat`; none of the verified properties involve overflow.
The Rust `HashMap<u32, Vec<VEMemoryChunk>>` is modelled as an association
list `List (Nat × List VEMemoryChunk)`; map iteration order is unspecified in
Rust, and the model fixes insertion order.
-/

deriving instance DecidableEq for Except

namespace VEngine

/-- Modelled from the spec: the device/context collaborator (§6), an external
capability interface whose primitives (raw device-memory creation, bind, map)
may fail ("out of device memory, invalid parameters, etc."). Each primitive's
outcome and the implementation-chosen chunk capacity are modelled as fields. -/
structure VEDevice where
  create_ok : Bool
  bind_ok : Bool
  map_ok : Bool
  chunk_capacity : Nat
deriving DecidableEq

/-- Modelled from the spec: the chunk-level error taxonomy of §7,
ChunkCreationFailed / BindFailed / MapFailed (`VEMemoryChunkError` in the
source, whose defining file is not among the visible sources). -/
inductive VEMemoryChunkError where
  | chunkCreationFailed
  | bindFailed
  | mapFailed
deriving DecidableEq

/-- The manager-level error enum of `memory_manager.rs` lines 10-26. -/
inductive VEMemoryManagerError where
  | noAllocationFoundToMap
  | noAllocationFoundToUnmap
  | noAllocationFoundToFree
  | memoryAlreadyMapped
  | mappingFailed (e : VEMemoryChunkError)
deriving DecidableEq

/-- The allocation handle (`VESingleAllocation`): chunk identifier, allocation
identifier, byte offset and byte size, as used by the manager's map/unmap/free. -/
structure VESingleAllocation where
  chunk_identifier : Nat
  alloc_identifier : Nat
  offset : Nat
  size : Nat
deriving DecidableEq

/-- Modelled from the spec: one tracked sub-allocation inside a chunk
(occupied byte range keyed by a sub-allocation identifier, §3/§4.2). -/
structure SubAllocation where
  alloc_identifier : Nat
  offset : Nat
  size : Nat
deriving DecidableEq

/-- Modelled from the spec: a memory chunk (§3): globally unique identifier,
immutable memory-type index, total capacity, a monotone counter minting
sub-allocation identifiers, and the tracked occupied ranges. -/
structure VEMemoryChunk where
  chunk_identifier : Nat
  memory_type_index : Nat
  capacity : Nat
  alloc_counter : Nat
  allocations : List SubAllocation
deriving DecidableEq

namespace VEMemoryChunk

/-- Modelled from the spec: `VEMemoryChunk::new(device, identifier,
memory_type_index)` (as called by the manager at lines 94-98) creates an empty
chunk of the implementation-chosen capacity, or fails with ChunkCreationFailed
when the underlying device allocation fails (§7). -/
def new (device : VEDevice) (identifier : Nat) (memory_type_index : Nat) :
    Except VEMemoryChunkError VEMemoryChunk :=
  if device.create_ok then
    .ok ⟨identifier, memory_type_index, device.chunk_capacity, 0, []⟩
  else
    .error .chunkCreationFailed

/-- Whether the byte range `[offset, offset + size)` is disjoint from every
tracked sub-allocation of the chunk. -/
def range_free (c : VEMemoryChunk) (offset size : Nat) : Bool :=
  c.allocations.all fun a =>
    decide (offset + size ≤ a.offset) || decide (a.offset + a.size ≤ offset)

/-- Modelled from the spec: `find_free_memory_offset(size)` (§4.2
`find_free_offset`), a pure first-fit query returning the start of the first
free region able to hold `size` contiguous bytes within the chunk's capacity,
i.e. the least offset whose range fits and is free. -/
def find_free_memory_offset (c : VEMemoryChunk) (size : Nat) : Option Nat :=
  (List.range (c.capacity + 1)).find? fun offset =>
    decide (offset + size ≤ c.capacity) && c.range_free offset size

/-- Modelled from the spec: the shared chunk-level bind logic behind
`bind_buffer_memory` / `bind_image_memory` (§4.2): commits the resource at the
given offset, marks the byte range occupied under a fresh sub-allocation
identifier and returns the handle, or fails with BindFailed when the
device-level bind primitive fails. The buffer/image argument plays no role in
the bookkeeping and is omitted. -/
def bind_memory (device : VEDevice) (c : VEMemoryChunk) (size offset : Nat) :
    Except VEMemoryChunkError (VEMemoryChunk × VESingleAllocation) :=
  if device.bind_ok then
    .ok (⟨c.chunk_identifier, c.memory_type_index, c.capacity, c.alloc_counter + 1,
          c.allocations ++ [⟨c.alloc_counter + 1, offset, size⟩]⟩,
         ⟨c.chunk_identifier, c.alloc_counter + 1, offset, size⟩)
  else
    .error .bindFailed

/-- Modelled from the spec: chunk-level `map(offset, size)` (§4.2) computes a
host pointer for the sub-range (modelled by its offset) or fails with
MapFailed when the device-level map primitive fails. It takes the chunk by
shared reference in the source and mutates no manager-visible state. -/
def map (device : VEDevice) (c : VEMemoryChunk) (offset size : Nat) :
    Except VEMemoryChunkError Nat :=
  if device.map_ok then .ok offset else .error .mapFailed

/-- Modelled from the spec: `free_allocation(alloc_identifier)` (§4.2) marks
the sub-allocation's byte range free again (no coalescing). -/
def free_allocation (c : VEMemoryChunk) (alloc_identifier : Nat) : VEMemoryChunk :=
  ⟨c.chunk_identifier, c.memory_type_index, c.capacity, c.alloc_counter,
   c.allocations.filter fun a => !(a.alloc_identifier == alloc_identifier)⟩

end VEMemoryChunk

/-- The pool manager state (`VEMemoryManager`, lines 28-33): the device handle,
the per-memory-type chunk lists, the monotone chunk-identifier counter and the
single global mapped flag. -/
structure VEMemoryManager where
  device : VEDevice
  chunks : List (Nat × List VEMemoryChunk)
  identifier_counter : Nat
  mapped : Bool
deriving DecidableEq

namespace VEMemoryManager

/-- `VEMemoryManager::new` (lines 42-50): empty chunk map, counter 0, unmapped. -/
def new (device : VEDevice) : VEMemoryManager :=
  ⟨device, [], 0, false⟩

/-- The chunk list stored for a memory-type index (empty when the key is absent). -/
def chunks_for (m : VEMemoryManager) (memory_type_index : Nat) : List VEMemoryChunk :=
  (m.chunks.lookup memory_type_index).getD []

/-- Lines 80-82: insert an empty chunk list for the key when it is absent. -/
def ensure_key (m : VEMemoryManager) (memory_type_index : Nat) : VEMemoryManager :=
  if (m.chunks.lookup memory_type_index).isSome then m
  else ⟨m.device, m.chunks ++ [(memory_type_index, [])], m.identifier_counter, m.mapped⟩

/-- Replace the chunk list stored for a memory-type index. -/
def set_chunks_for (m : VEMemoryManager) (memory_type_index : Nat)
    (cs : List VEMemoryChunk) : VEMemoryManager :=
  ⟨m.device,
   m.chunks.map fun p => if p.1 = memory_type_index then (memory_type_index, cs) else p,
   m.identifier_counter, m.mapped⟩

/-- The scan loop of `find_free` (lines 85-90): index of the first chunk whose
`find_free_memory_offset` reports an offset, paired with that offset. -/
def scan_chunks (size : Nat) : List VEMemoryChunk → Option (Nat × Nat)
  | [] => none
  | c :: rest =>
    match c.find_free_memory_offset size with
    | some offset => some (0, offset)
    | none => (scan_chunks size rest).map fun p => (p.1 + 1, p.2)

/-- `VEMemoryManager::find_free` (lines 75-101). Returns the mutated manager
together with either the position (index into the type's chunk list) and offset
of the found free region, or the chunk-creation error. The Rust function
returns `&mut VEMemoryChunk`; the model returns the chunk's index instead. -/
def find_free (m : VEMemoryManager) (memory_type_index size : Nat) :
    VEMemoryManager × Except VEMemoryChunkError (Nat × Nat) :=
  let m1 := m.ensure_key memory_type_index
  match scan_chunks size (m1.chunks_for memory_type_index) with
  | some io => (m1, .ok io)
  | none =>
    let m2 : VEMemoryManager := ⟨m1.device, m1.chunks, m1.identifier_counter + 1, m1.mapped⟩
    match VEMemoryChunk.new m2.device m2.identifier_counter memory_type_index with
    | .error e => (m2, .error e)
    | .ok c =>
      let cs := m2.chunks_for memory_type_index
      (m2.set_chunks_for memory_type_index (cs ++ [c]), .ok (cs.length, 0))

/-- `VEMemoryManager::bind_buffer_memory` (lines 52-61): find a free spot,
then delegate the bind to that chunk at that offset. The impossible `none`
branch models the Rust indexing/unwrap of an index `find_free` just produced. -/
def bind_buffer_memory (m : VEMemoryManager) (memory_type_index size : Nat) :
    VEMemoryManager × Except VEMemoryChunkError VESingleAllocation :=
  match m.find_free memory_type_index size with
  | (m1, .error e) => (m1, .error e)
  | (m1, .ok (i, offset)) =>
    match (m1.chunks_for memory_type_index).get? i with
    | none => (m1, .error .bindFailed)
    | some c =>
      match VEMemoryChunk.bind_memory m1.device c size offset with
      | .error e => (m1, .error e)
      | .ok (c2, a) =>
        (m1.set_chunks_for memory_type_index
          ((m1.chunks_for memory_type_index).set i c2), .ok a)

/-- `VEMemoryManager::bind_image_memory` (lines 63-72): identical routing to
`bind_buffer_memory`; the buffer/image distinction only selects the underlying
device primitive and plays no role in the bookkeeping. -/
def bind_image_memory (m : VEMemoryManager) (memory_type_index size : Nat) :
    VEMemoryManager × Except VEMemoryChunkError VESingleAllocation :=
  m.bind_buffer_memory memory_type_index size

/-- All tracked chunks, in the iteration order of the chunk map. -/
def all_chunks (m : VEMemoryManager) : List VEMemoryChunk :=
  m.chunks.flatMap fun p => p.2

/-- The chunk-identifier scan shared by map/unmap (lines 112-121, 127-135). -/
def find_chunk (m : VEMemoryManager) (cid : Nat) : Option VEMemoryChunk :=
  m.all_chunks.find? fun c => c.chunk_identifier == cid

/-- `VEMemoryManager::map` (lines 103-123): refuse when the global mapped flag
is set; otherwise find the chunk by the handle's chunk identifier, set the
flag, and return the chunk-level map result (the flag is set before the
chunk-level map is consulted, as in the source). -/
def map (m : VEMemoryManager) (allocation : VESingleAllocation) :
    VEMemoryManager × Except VEMemoryManagerError Nat :=
  if m.mapped then (m, .error .memoryAlreadyMapped)
  else
    match m.find_chunk allocation.chunk_identifier with
    | some c =>
      (⟨m.device, m.chunks, m.identifier_counter, true⟩,
       match VEMemoryChunk.map m.device c allocation.offset allocation.size with
       | .ok p => .ok p
       | .error e => .error (.mappingFailed e))
    | none => (m, .error .noAllocationFoundToMap)

/-- `VEMemoryManager::unmap` (lines 125-137): on the first chunk matching the
handle's chunk identifier, clear the global mapped flag and succeed; the
chunk-level unmap mutates no manager-visible state (shared reference). -/
def unmap (m : VEMemoryManager) (allocation : VESingleAllocation) :
    VEMemoryManager × Except VEMemoryManagerError Unit :=
  match m.find_chunk allocation.chunk_identifier with
  | some _ => (⟨m.device, m.chunks, m.identifier_counter, false⟩, .ok ())
  | none => (m, .error .noAllocationFoundToUnmap)

/-- The inner loop of `free_allocation` on one chunk list: free in the first
chunk matching the identifier, `none` when no chunk matches. -/
def free_in_list (cid aid : Nat) : List VEMemoryChunk → Option (List VEMemoryChunk)
  | [] => none
  | c :: rest =>
    if c.chunk_identifier = cid then some (c.free_allocation aid :: rest)
    else (free_in_list cid aid rest).map fun cs => c :: cs

/-- The outer loop of `free_allocation` across the chunk map's values. -/
def free_in_lists (cid aid : Nat) :
    List (Nat × List VEMemoryChunk) → Option (List (Nat × List VEMemoryChunk))
  | [] => none
  | (t, cs) :: rest =>
    match free_in_list cid aid cs with
    | some cs2 => some ((t, cs2) :: rest)
    | none => (free_in_lists cid aid rest).map fun l => (t, cs) :: l

/-- `VEMemoryManager::free_allocation` (lines 139-153): on the first chunk
matching the handle's chunk identifier, delegate the free to it and succeed;
NotFound when no chunk matches. -/
def free_allocation (m : VEMemoryManager) (allocation : VESingleAllocation) :
    VEMemoryManager × Except VEMemoryManagerError Unit :=
  match free_in_lists allocation.chunk_identifier allocation.alloc_identifier m.chunks with
  | some chs => (⟨m.device, chs, m.identifier_counter, m.mapped⟩, .ok ())
  | none => (m, .error .noAllocationFoundToFree)

end VEMemoryManager

/-- One caller-visible operation on the pool manager. -/
inductive MMOp where
  | bindBuffer (memory_type_index size : Nat)
  | bindImage (memory_type_index size : Nat)
  | mapOp (a : VESingleAllocation)
  | unmapOp (a : VESingleAllocation)
  | freeOp (a : VESingleAllocation)
deriving DecidableEq

/-- The state transition of one operation (results discarded). -/
def step (m : VEMemoryManager) : MMOp → VEMemoryManager
  | .bindBuffer t s => (m.bind_buffer_memory t s).1
  | .bindImage t s => (m.bind_image_memory t s).1
  | .mapOp a => (m.map a).1
  | .unmapOp a => (m.unmap a).1
  | .freeOp a => (m.free_allocation a).1

/-- Run a sequence of operations from a fresh manager on the given device. -/
def run_ops (device : VEDevice) (ops : List MMOp) : VEMemoryManager :=
  ops.foldl step (VEMemoryManager.new device)

/-- A pool state is reachable when some operation sequence produces it. -/
def Reachable (device : VEDevice) (m : VEMemoryManager) : Prop :=
  ∃ ops, run_ops device ops = m

/-- A device whose creation, bind and map primitives all succeed
(capacity 16 bytes per chunk, for concrete scenarios). -/
def devAllOk : VEDevice := ⟨true, true, true, 16⟩

/-- A device whose map primitive fails (creation and bind succeed). -/
def devMapFails : VEDevice := ⟨true, true, false, 16⟩

/-- A device whose chunk-creation primitive fails. -/
def devCreateFails : VEDevice := ⟨false, true, true, 16⟩

/-- Two sub-allocation byte ranges `[offset, offset+size)` do not overlap. -/
def ranges_disjoint (a b : SubAllocation) : Prop :=
  a.offset + a.size ≤ b.offset ∨ b.offset + b.size ≤ a.offset

/-- All live sub-allocations tracked by a chunk are pairwise non-overlapping. -/
def chunk_wf (c : VEMemoryChunk) : Prop :=
  c.allocations.Pairwise ranges_disjoint

/-- Every chunk tracked anywhere in the pool satisfies `chunk_wf`. -/
def manager_wf (m : VEMemoryManager) : Prop :=
  ∀ p ∈ m.chunks, ∀ c ∈ p.2, chunk_wf c

/-- The identity of a chunk: its chunk identifier and memory-type index
(the fields untouched by binds and frees). -/
def chunk_sig (c : VEMemoryChunk) : Nat × Nat :=
  (c.chunk_identifier, c.memory_type_index)

/-- The pool's chunk map with every chunk abstracted to its `chunk_sig`. -/
def sig_view (m : VEMemoryManager) : List (Nat × List (Nat × Nat)) :=
  m.chunks.map fun p => (p.1, p.2.map chunk_sig)

/-- The identifier bookkeeping invariant, phrased over a sig view `v` and the
identifier counter: distinct keys, all identifiers positive and at most the
counter, globally distinct identifiers, per-list strictly increasing
identifiers, and every chunk filed under its own memory-type index. -/
def id_inv_sig (v : List (Nat × List (Nat × Nat))) (counter : Nat) : Prop :=
  (v.map Prod.fst).Nodup ∧
  (∀ q ∈ v, ∀ s ∈ q.2, s.1 ≤ counter) ∧
  ((v.flatMap fun q => q.2.map Prod.fst).Nodup) ∧
  (∀ q ∈ v, (q.2.map Prod.fst).Pairwise (· < ·)) ∧
  (∀ q ∈ v, ∀ s ∈ q.2, s.2 = q.1)

/-- The identifier bookkeeping invariant of a pool state. -/
def id_inv (m : VEMemoryManager) : Prop :=
  id_inv_sig (sig_view m) m.identifier_counter

end VEngine

namespace VEngine

/-! ### Plumbing lemmas about the chunk-map helpers -/

theorem chunks_for_eq (d : VEDevice) (chs : List (Nat × List VEMemoryChunk)) (k : Nat) (b : Bool)
    (t : Nat) : VEMemoryManager.chunks_for ⟨d, chs, k, b⟩ t = (chs.lookup t).getD [] := rfl

theorem ensure_key_device (m : VEMemoryManager) (t : Nat) :
    (m.ensure_key t).device = m.device := by
  unfold VEMemoryManager.ensure_key; split <;> rfl

theorem ensure_key_identifier_counter (m : VEMemoryManager) (t : Nat) :
    (m.ensure_key t).identifier_counter = m.identifier_counter := by
  unfold VEMemoryManager.ensure_key; split <;> rfl

theorem ensure_key_mapped (m : VEMemoryManager) (t : Nat) :
    (m.ensure_key t).mapped = m.mapped := by
  unfold VEMemoryManager.ensure_key; split <;> rfl

theorem lookup_ensure_key_self (m : VEMemoryManager) (t : Nat) :
    ((m.ensure_key t).chunks.lookup t).isSome := by
  unfold VEMemoryManager.ensure_key
  cases hl : m.chunks.lookup t with
  | some cs => simp [hl]
  | none => simp [hl, List.lookup_append, List.lookup]

theorem chunks_for_ensure_key (m : VEMemoryManager) (t t2 : Nat) :
    (m.ensure_key t).chunks_for t2 = m.chunks_for t2 := by
  unfold VEMemoryManager.ensure_key VEMemoryManager.chunks_for
  split
  · rfl
  · rw [List.lookup_append]
    cases hl : m.chunks.lookup t2 with
    | some cs => simp
    | none =>
      cases h3 : t2 == t <;> simp [List.lookup, h3]

theorem lookup_map_replace_self (l : List (Nat × List VEMemoryChunk)) (t : Nat)
    (cs : List VEMemoryChunk) (h : (l.lookup t).isSome) :
    ((l.map fun p => if p.1 = t then (t, cs) else p).lookup t) = some cs := by
  induction l with
  | nil => simp [List.lookup] at h
  | cons p rest ih =>
    obtain ⟨k, v⟩ := p
    simp only [List.map]
    by_cases hk : k = t
    · subst hk
      rw [if_pos rfl]
      simp [List.lookup]
    · rw [if_neg hk]
      have hk3 : (t == k) = false := by simp [Ne.symm hk]
      simp only [List.lookup, hk3] at h
      simp only [List.lookup, hk3]
      exact ih h

theorem lookup_map_replace_ne (l : List (Nat × List VEMemoryChunk)) (t t2 : Nat)
    (cs : List VEMemoryChunk) (h : t2 ≠ t) :
    ((l.map fun p => if p.1 = t then (t, cs) else p).lookup t2) = l.lookup t2 := by
  induction l with
  | nil => rfl
  | cons p rest ih =>
    obtain ⟨k, v⟩ := p
    simp only [List.map]
    by_cases hk : k = t
    · subst hk
      rw [if_pos rfl]
      have h2 : (t2 == k) = false := by simp [h]
      simp [List.lookup, h2, ih]
    · rw [if_neg hk]
      by_cases h3 : t2 = k
      · subst h3
        simp [List.lookup]
      · have h4 : (t2 == k) = false := by simp [h3]
        simp [List.lookup, h4, ih]

theorem lookup_set_chunks_for_self (m : VEMemoryManager) (t : Nat)
    (cs : List VEMemoryChunk) (h : (m.chunks.lookup t).isSome) :
    (m.set_chunks_for t cs).chunks.lookup t = some cs := by
  show ((m.chunks.map fun p => if p.1 = t then (t, cs) else p).lookup t) = some cs
  exact lookup_map_replace_self m.chunks t cs h

theorem chunks_for_set_chunks_for_self (m : VEMemoryManager) (t : Nat)
    (cs : List VEMemoryChunk) (h : (m.chunks.lookup t).isSome) :
    (m.set_chunks_for t cs).chunks_for t = cs := by
  unfold VEMemoryManager.set_chunks_for VEMemoryManager.chunks_for
  rw [lookup_map_replace_self m.chunks t cs h]
  rfl

theorem chunks_for_set_chunks_for_ne (m : VEMemoryManager) (t t2 : Nat)
    (cs : List VEMemoryChunk) (h : t2 ≠ t) :
    (m.set_chunks_for t cs).chunks_for t2 = m.chunks_for t2 := by
  unfold VEMemoryManager.set_chunks_for VEMemoryManager.chunks_for
  rw [lookup_map_replace_ne m.chunks t t2 cs h]

end VEngine

namespace VEngine

/-! ### Behaviour of map and unmap with respect to the global mapped flag -/

theorem map_ne_alreadyMapped_of_unmapped (m : VEMemoryManager) (b : VESingleAllocation)
    (hm : m.mapped = false) :
    (m.map b).2 ≠ .error .memoryAlreadyMapped := by
  unfold VEMemoryManager.map
  rw [hm]
  cases hfc : m.find_chunk b.chunk_identifier with
  | some c =>
    cases hcm : VEMemoryChunk.map m.device c b.offset b.size with
    | ok p => simp [hcm]
    | error e => simp [hcm]
  | none => simp

/-- C1: in every pool state whose global mapped flag is set, `map` on any
allocation handle (whatever chunk or allocation it targets) returns the
MemoryAlreadyMapped error without granting a pointer or changing the state,
and `map` can only return a pointer from a state whose flag is clear. -/
theorem c1_map_gated_by_global_flag (m : VEMemoryManager) (a : VESingleAllocation) :
    (m.mapped = true → m.map a = (m, .error .memoryAlreadyMapped)) ∧
    (∀ p : Nat, (m.map a).2 = .ok p → m.mapped = false) := by
  constructor
  · intro h
    unfold VEMemoryManager.map
    rw [h]
    simp
  · intro p hp
    cases hmap : m.mapped with
    | false => rfl
    | true =>
      unfold VEMemoryManager.map at hp
      rw [hmap] at hp
      simp at hp

/-- Witness for C1 at a reachable state with an active mapping. -/
theorem c1_map_gated_by_global_flag_witness :
    (run_ops devAllOk [.bindBuffer 0 4, .mapOp ⟨1, 1, 0, 4⟩]).map ⟨1, 2, 4, 4⟩
      = (run_ops devAllOk [.bindBuffer 0 4, .mapOp ⟨1, 1, 0, 4⟩],
         .error .memoryAlreadyMapped) :=
  (c1_map_gated_by_global_flag _ _).1 (by decide)

/-- C3 counterexample: from the reachable state after one successful bind on a
device whose map primitive fails, `map` returns a chunk-level MappingFailed
error and yet flips the global mapped flag from false to true, so a failed
call does change the pool state, contrary to the claim. -/
theorem c3_counterexample_failed_map_mutates :
    ((run_ops devMapFails [.bindBuffer 0 4]).map ⟨1, 1, 0, 4⟩).2
        = .error (.mappingFailed .mapFailed) ∧
    (run_ops devMapFails [.bindBuffer 0 4]).mapped = false ∧
    ((run_ops devMapFails [.bindBuffer 0 4]).map ⟨1, 1, 0, 4⟩).1.mapped = true := by
  decide

/-- C3 (amended): a `map` call failing with MemoryAlreadyMapped or
NoAllocationFoundToMap leaves the pool state unchanged, but a call failing
with a chunk-level mapping error has already set the global mapped flag: it
returns from a state whose flag was false with the flag set to true. -/
theorem c3_map_error_state (m : VEMemoryManager) (a : VESingleAllocation) :
    ((m.map a).2 = .error .memoryAlreadyMapped → (m.map a).1 = m) ∧
    ((m.map a).2 = .error .noAllocationFoundToMap → (m.map a).1 = m) ∧
    (∀ e, (m.map a).2 = .error (.mappingFailed e) →
      m.mapped = false ∧
      (m.map a).1 = ⟨m.device, m.chunks, m.identifier_counter, true⟩) := by
  unfold VEMemoryManager.map
  cases hm : m.mapped with
  | true =>
    refine ⟨fun _ => rfl, fun hp => ?_, fun e hp => ?_⟩ <;> simp at hp
  | false =>
    cases hfc : m.find_chunk a.chunk_identifier with
    | none =>
      refine ⟨fun hp => ?_, fun _ => rfl, fun e hp => ?_⟩ <;> simp at hp
    | some c =>
      cases hcm : VEMemoryChunk.map m.device c a.offset a.size with
      | ok p =>
        refine ⟨fun hp => ?_, fun hp => ?_, fun e hp => ?_⟩ <;> simp [hcm] at hp
      | error e2 =>
        refine ⟨fun hp => ?_, fun hp => ?_, fun e hp => ?_⟩
        · simp [hcm] at hp
        · simp [hcm] at hp
        · exact ⟨rfl, rfl⟩

/-- Witness for the amended C3 at a concrete failing map. -/
theorem c3_map_error_state_witness :
    (run_ops devMapFails [.bindBuffer 0 4]).mapped = false ∧
    ((run_ops devMapFails [.bindBuffer 0 4]).map ⟨1, 1, 0, 4⟩).1
      = ⟨(run_ops devMapFails [.bindBuffer 0 4]).device,
         (run_ops devMapFails [.bindBuffer 0 4]).chunks,
         (run_ops devMapFails [.bindBuffer 0 4]).identifier_counter, true⟩ :=
  (c3_map_error_state _ _).2.2 .mapFailed (by decide)

/-- C6: `unmap` on any handle whose chunk identifier is tracked succeeds and
clears the global mapped flag unconditionally (whatever its prior value), and
from the resulting state no `map` call is rejected with MemoryAlreadyMapped. -/
theorem c6_unmap_clears_global_flag (m : VEMemoryManager) (a : VESingleAllocation)
    (h : (m.find_chunk a.chunk_identifier).isSome) :
    m.unmap a = (⟨m.device, m.chunks, m.identifier_counter, false⟩, .ok ()) ∧
    ∀ b : VESingleAllocation,
      ((m.unmap a).1.map b).2 ≠ .error .memoryAlreadyMapped := by
  have hu : m.unmap a = (⟨m.device, m.chunks, m.identifier_counter, false⟩, .ok ()) := by
    unfold VEMemoryManager.unmap
    cases hfc : m.find_chunk a.chunk_identifier with
    | some c => rfl
    | none => rw [hfc] at h; simp at h
  refine ⟨hu, fun b => ?_⟩
  rw [hu]
  exact map_ne_alreadyMapped_of_unmapped _ b rfl

/-- Witness for C6: unmapping after a successful map. -/
theorem c6_unmap_clears_global_flag_witness :
    ((run_ops devAllOk [.bindBuffer 0 4, .mapOp ⟨1, 1, 0, 4⟩]).unmap ⟨1, 1, 0, 4⟩).2
      = .ok () :=
  congrArg Prod.snd (c6_unmap_clears_global_flag _ _ (by decide)).1

/-- C10: the manager routes `unmap` by chunk identifier only: for any handle
whose chunk identifier is tracked — in particular in a state whose active
mapping belongs to a different allocation or chunk — `unmap` succeeds and
clears the global flag, and its result is identical for any two handles
sharing a chunk identifier (the allocation identity is never checked). -/
theorem c10_unmap_routes_by_chunk_id (m : VEMemoryManager) (a : VESingleAllocation)
    (h : (m.find_chunk a.chunk_identifier).isSome) :
    m.unmap a = (⟨m.device, m.chunks, m.identifier_counter, false⟩, .ok ()) ∧
    ∀ b : VESingleAllocation, b.chunk_identifier = a.chunk_identifier →
      m.unmap b = m.unmap a := by
  constructor
  · unfold VEMemoryManager.unmap
    cases hfc : m.find_chunk a.chunk_identifier with
    | some c => rfl
    | none => rw [hfc] at h; simp at h
  · intro b hb
    unfold VEMemoryManager.unmap
    rw [hb]

/-- Witness for C10: with the mapping active on allocation 1 of chunk 1,
unmapping via an unrelated handle into chunk 2 succeeds and clears the flag. -/
theorem c10_unmap_routes_by_chunk_id_witness :
    ((run_ops devAllOk [.bindBuffer 0 4, .bindBuffer 0 20,
        .mapOp ⟨1, 1, 0, 4⟩]).unmap ⟨2, 5, 3, 7⟩).2 = .ok () ∧
    ((run_ops devAllOk [.bindBuffer 0 4, .bindBuffer 0 20,
        .mapOp ⟨1, 1, 0, 4⟩]).unmap ⟨2, 5, 3, 7⟩).1.mapped = false :=
  ⟨congrArg Prod.snd (c10_unmap_routes_by_chunk_id _ _ (by decide)).1,
   congrArg (fun x => x.1.mapped) (c10_unmap_routes_by_chunk_id _ _ (by decide)).1⟩

end VEngine

namespace VEngine

/-! ### Routing of free and the not-found errors -/

theorem find_chunk_eq_none_iff (m : VEMemoryManager) (cid : Nat) :
    m.find_chunk cid = none ↔ ∀ c ∈ m.all_chunks, c.chunk_identifier ≠ cid := by
  unfold VEMemoryManager.find_chunk
  rw [List.find?_eq_none]
  constructor
  · intro h c hc
    simpa using h c hc
  · intro h c hc
    simpa using h c hc

theorem free_in_list_eq_none_iff (cid aid : Nat) (cs : List VEMemoryChunk) :
    VEMemoryManager.free_in_list cid aid cs = none ↔
      ∀ c ∈ cs, c.chunk_identifier ≠ cid := by
  induction cs with
  | nil => simp [VEMemoryManager.free_in_list]
  | cons c rest ih =>
    by_cases hc : c.chunk_identifier = cid
    · simp [VEMemoryManager.free_in_list, hc]
    · simp [VEMemoryManager.free_in_list, hc, Option.map_eq_none', ih]

theorem free_in_lists_eq_none_iff (cid aid : Nat) (l : List (Nat × List VEMemoryChunk)) :
    VEMemoryManager.free_in_lists cid aid l = none ↔
      ∀ p ∈ l, ∀ c ∈ p.2, c.chunk_identifier ≠ cid := by
  induction l with
  | nil => simp [VEMemoryManager.free_in_lists]
  | cons p rest ih =>
    obtain ⟨t, cs⟩ := p
    cases hfl : VEMemoryManager.free_in_list cid aid cs with
    | some cs2 =>
      simp only [VEMemoryManager.free_in_lists, hfl]
      constructor
      · intro h; exact absurd h (by simp)
      · intro h
        exfalso
        have hnone : VEMemoryManager.free_in_list cid aid cs = none :=
          (free_in_list_eq_none_iff cid aid cs).2 fun c hc =>
            h (t, cs) (List.mem_cons_self _ _) c hc
        rw [hnone] at hfl
        exact Option.noConfusion hfl
    | none =>
      have hhead : ∀ c ∈ cs, c.chunk_identifier ≠ cid :=
        (free_in_list_eq_none_iff cid aid cs).1 hfl
      simp only [VEMemoryManager.free_in_lists, hfl, Option.map_eq_none', ih,
        List.forall_mem_cons]
      constructor
      · intro h
        exact ⟨fun c hc => hhead c hc, h⟩
      · intro h
        exact h.2

theorem free_in_list_sig (cid aid : Nat) (cs cs2 : List VEMemoryChunk)
    (h : VEMemoryManager.free_in_list cid aid cs = some cs2) :
    cs2.map chunk_sig = cs.map chunk_sig := by
  induction cs generalizing cs2 with
  | nil => simp [VEMemoryManager.free_in_list] at h
  | cons c rest ih =>
    by_cases hc : c.chunk_identifier = cid
    · simp only [VEMemoryManager.free_in_list, if_pos hc] at h
      simp only [Option.some.injEq] at h
      subst h
      simp [chunk_sig, VEMemoryChunk.free_allocation]
    · simp only [VEMemoryManager.free_in_list, if_neg hc] at h
      cases hr : VEMemoryManager.free_in_list cid aid rest with
      | none => rw [hr] at h; exact absurd h (by simp)
      | some cs3 =>
        rw [hr] at h
        simp only [Option.map_some', Option.some.injEq] at h
        subst h
        simp [ih cs3 hr]

theorem free_in_lists_sig (cid aid : Nat) (l l2 : List (Nat × List VEMemoryChunk))
    (h : VEMemoryManager.free_in_lists cid aid l = some l2) :
    l2.map (fun p => (p.1, p.2.map chunk_sig)) =
      l.map (fun p => (p.1, p.2.map chunk_sig)) := by
  induction l generalizing l2 with
  | nil => simp [VEMemoryManager.free_in_lists] at h
  | cons p rest ih =>
    obtain ⟨t, cs⟩ := p
    cases hfl : VEMemoryManager.free_in_list cid aid cs with
    | some cs2 =>
      simp only [VEMemoryManager.free_in_lists, hfl, Option.some.injEq] at h
      subst h
      simp [free_in_list_sig cid aid cs cs2 hfl]
    | none =>
      simp only [VEMemoryManager.free_in_lists, hfl] at h
      cases hr : VEMemoryManager.free_in_lists cid aid rest with
      | none => rw [hr] at h; exact absurd h (by simp)
      | some l3 =>
        rw [hr] at h
        simp only [Option.map_some', Option.some.injEq] at h
        subst h
        simp [ih l3 hr]

theorem sig_mem_transfer {l l2 : List (Nat × List VEMemoryChunk)}
    (hsig : l2.map (fun p => (p.1, p.2.map chunk_sig)) =
      l.map (fun p => (p.1, p.2.map chunk_sig)))
    {c : VEMemoryChunk} {p : Nat × List VEMemoryChunk} (hp : p ∈ l) (hc : c ∈ p.2) :
    ∃ q ∈ l2, ∃ c2 ∈ q.2, c2.chunk_identifier = c.chunk_identifier := by
  have h1 : (p.1, p.2.map chunk_sig) ∈ l.map (fun p => (p.1, p.2.map chunk_sig)) :=
    List.mem_map.2 ⟨p, hp, rfl⟩
  rw [← hsig] at h1
  obtain ⟨q, hq, hfq⟩ := List.mem_map.1 h1
  have h2 : chunk_sig c ∈ q.2.map chunk_sig := by
    have h3 : q.2.map chunk_sig = p.2.map chunk_sig := congrArg Prod.snd hfq
    rw [h3]
    exact List.mem_map.2 ⟨c, hc, rfl⟩
  obtain ⟨c2, hc2, hsc⟩ := List.mem_map.1 h2
  exact ⟨q, hq, c2, hc2, congrArg Prod.fst hsc⟩

theorem free_allocation_of_some (m : VEMemoryManager) (a : VESingleAllocation)
    (chs : List (Nat × List VEMemoryChunk))
    (h : VEMemoryManager.free_in_lists a.chunk_identifier a.alloc_identifier
      m.chunks = some chs) :
    m.free_allocation a
      = (⟨m.device, chs, m.identifier_counter, m.mapped⟩, .ok ()) := by
  unfold VEMemoryManager.free_allocation
  rw [h]

theorem free_allocation_of_none (m : VEMemoryManager) (a : VESingleAllocation)
    (h : VEMemoryManager.free_in_lists a.chunk_identifier a.alloc_identifier
      m.chunks = none) :
    m.free_allocation a = (m, .error .noAllocationFoundToFree) := by
  unfold VEMemoryManager.free_allocation
  rw [h]

/-- C4 counterexample: in the reachable state where a mapping is active, `map`
on a handle whose chunk identifier 99 was never issued fails with
MemoryAlreadyMapped, not with the NotFound error the claim requires. -/
theorem c4_counterexample_map_unknown_while_mapped :
    (run_ops devAllOk [.bindBuffer 0 4, .mapOp ⟨1, 1, 0, 4⟩]).find_chunk 99 = none ∧
    ((run_ops devAllOk [.bindBuffer 0 4, .mapOp ⟨1, 1, 0, 4⟩]).map ⟨99, 1, 0, 4⟩).2
        = .error .memoryAlreadyMapped ∧
    ((run_ops devAllOk [.bindBuffer 0 4, .mapOp ⟨1, 1, 0, 4⟩]).map ⟨99, 1, 0, 4⟩).2
        ≠ .error .noAllocationFoundToMap := by decide

/-- C4 (amended): on a handle whose chunk identifier is not tracked, unmap and
free always fail with their NotFound errors; map fails with its NotFound error
whenever the global mapped flag is clear, but with MemoryAlreadyMapped when a
mapping is active (the global gate is checked before the handle lookup). -/
theorem c4_unknown_chunk_id_errors (m : VEMemoryManager) (a : VESingleAllocation)
    (h : m.find_chunk a.chunk_identifier = none) :
    (m.unmap a).2 = .error .noAllocationFoundToUnmap ∧
    (m.free_allocation a).2 = .error .noAllocationFoundToFree ∧
    (m.mapped = false → (m.map a).2 = .error .noAllocationFoundToMap) ∧
    (m.mapped = true → (m.map a).2 = .error .memoryAlreadyMapped) := by
  have hall : ∀ c ∈ m.all_chunks, c.chunk_identifier ≠ a.chunk_identifier :=
    (find_chunk_eq_none_iff m a.chunk_identifier).1 h
  refine ⟨?_, ?_, ?_, ?_⟩
  · unfold VEMemoryManager.unmap
    rw [h]
  · unfold VEMemoryManager.free_allocation
    have hnone : VEMemoryManager.free_in_lists a.chunk_identifier a.alloc_identifier
        m.chunks = none :=
      (free_in_lists_eq_none_iff _ _ _).2 fun p hp c hc =>
        hall c (List.mem_flatMap.2 ⟨p, hp, hc⟩)
    rw [hnone]
  · intro hm
    unfold VEMemoryManager.map
    rw [hm, h]
    simp
  · intro hm
    unfold VEMemoryManager.map
    rw [hm]
    simp

/-- Witness for the amended C4 at a concrete unknown handle. -/
theorem c4_unknown_chunk_id_errors_witness :
    ((run_ops devAllOk [.bindBuffer 0 4]).unmap ⟨99, 1, 0, 4⟩).2
      = .error .noAllocationFoundToUnmap :=
  (c4_unknown_chunk_id_errors _ _ (by decide)).1

/-- C5 counterexample: the handle returned by a successful bind can be freed
twice: the second free also returns success, not the NotFound error the claim
requires, because the owning chunk is never removed from the pool. -/
theorem c5_counterexample_double_free_succeeds :
    ((VEMemoryManager.new devAllOk).bind_buffer_memory 0 4).2 = .ok ⟨1, 1, 0, 4⟩ ∧
    ((run_ops devAllOk [.bindBuffer 0 4]).free_allocation ⟨1, 1, 0, 4⟩).2 = .ok () ∧
    (((run_ops devAllOk [.bindBuffer 0 4]).free_allocation ⟨1, 1, 0, 4⟩).1.free_allocation
        ⟨1, 1, 0, 4⟩).2 = .ok () ∧
    (((run_ops devAllOk [.bindBuffer 0 4]).free_allocation ⟨1, 1, 0, 4⟩).1.free_allocation
        ⟨1, 1, 0, 4⟩).2 ≠ .error .noAllocationFoundToFree := by decide

/-- C5 (amended): free succeeds exactly when some tracked chunk carries the
handle's chunk identifier; since chunks are never destroyed, a second
free of the same handle after a successful free succeeds again (the manager
routes by chunk identifier only and reports no double-free). -/
theorem c5_second_free_also_succeeds (m : VEMemoryManager) (a : VESingleAllocation)
    (h : (m.free_allocation a).2 = .ok ()) :
    ((m.free_allocation a).1.free_allocation a).2 = .ok () := by
  cases hfl : VEMemoryManager.free_in_lists a.chunk_identifier a.alloc_identifier
      m.chunks with
  | none =>
    rw [free_allocation_of_none m a hfl] at h
    exact absurd h (by simp)
  | some chs =>
    have hstate : (m.free_allocation a).1
        = ⟨m.device, chs, m.identifier_counter, m.mapped⟩ :=
      congrArg Prod.fst (free_allocation_of_some m a chs hfl)
    rw [hstate]
    cases hfl2 : VEMemoryManager.free_in_lists a.chunk_identifier a.alloc_identifier
        chs with
    | some chs2 =>
      exact congrArg Prod.snd
        (free_allocation_of_some ⟨m.device, chs, m.identifier_counter, m.mapped⟩ a chs2 hfl2)
    | none =>
      exfalso
      have hne : ¬ ∀ p ∈ m.chunks, ∀ c ∈ p.2, c.chunk_identifier ≠ a.chunk_identifier := by
        intro hforall
        have hn2 := (free_in_lists_eq_none_iff a.chunk_identifier a.alloc_identifier
          m.chunks).2 hforall
        rw [hn2] at hfl
        exact Option.noConfusion hfl
      have hex : ∃ p ∈ m.chunks, ∃ c ∈ p.2, c.chunk_identifier = a.chunk_identifier := by
        by_contra hno
        push_neg at hno
        exact hne hno
      obtain ⟨p, hp, c, hc, hcid⟩ := hex
      have hsig := free_in_lists_sig a.chunk_identifier a.alloc_identifier m.chunks chs hfl
      obtain ⟨q, hq, c2, hc2, hcid2⟩ := sig_mem_transfer hsig hp hc
      have hforall2 := (free_in_lists_eq_none_iff a.chunk_identifier
        a.alloc_identifier chs).1 hfl2
      exact hforall2 q hq c2 hc2 (hcid2.trans hcid)

/-- Witness for the amended C5 at a concrete double free. -/
theorem c5_second_free_also_succeeds_witness :
    (((run_ops devAllOk [.bindBuffer 0 8]).free_allocation ⟨1, 1, 0, 8⟩).1.free_allocation
        ⟨1, 1, 0, 8⟩).2 = .ok () :=
  c5_second_free_also_succeeds _ _ (by decide)

end VEngine

namespace VEngine

/-! ### The find-free scan and chunk creation -/

theorem scan_chunks_eq_none (size : Nat) (cs : List VEMemoryChunk)
    (h : ∀ c ∈ cs, c.find_free_memory_offset size = none) :
    VEMemoryManager.scan_chunks size cs = none := by
  induction cs with
  | nil => rfl
  | cons c rest ih =>
    have hc := h c (List.mem_cons_self _ _)
    have hrest := ih fun c2 hc2 => h c2 (List.mem_cons_of_mem _ hc2)
    simp [VEMemoryManager.scan_chunks, hc, hrest]

theorem find_free_create_fail (m : VEMemoryManager) (t size : Nat)
    (hc : m.device.create_ok = false)
    (hscan : VEMemoryManager.scan_chunks size (m.chunks_for t) = none) :
    m.find_free t size =
      (⟨m.device, (m.ensure_key t).chunks, m.identifier_counter + 1, m.mapped⟩,
       .error .chunkCreationFailed) := by
  simp only [VEMemoryManager.find_free, chunks_for_ensure_key, hscan, VEMemoryChunk.new,
    ensure_key_device, ensure_key_identifier_counter, ensure_key_mapped, hc]
  simp

/-- C8: whenever no existing chunk can satisfy the request and the device-level
chunk creation fails, bind returns the ChunkCreationFailed error to the caller
and appends no chunk to any chunk list (every per-type list is unchanged). -/
theorem c8_chunk_creation_failure (m : VEMemoryManager) (t size : Nat)
    (hc : m.device.create_ok = false)
    (hscan : ∀ c ∈ m.chunks_for t, c.find_free_memory_offset size = none) :
    (m.bind_buffer_memory t size).2 = .error .chunkCreationFailed ∧
    ∀ t2, (m.bind_buffer_memory t size).1.chunks_for t2 = m.chunks_for t2 := by
  have hscan2 : VEMemoryManager.scan_chunks size (m.chunks_for t) = none :=
    scan_chunks_eq_none size _ hscan
  have hff := find_free_create_fail m t size hc hscan2
  unfold VEMemoryManager.bind_buffer_memory
  rw [hff]
  exact ⟨rfl, fun t2 => chunks_for_ensure_key m t t2⟩

/-- Witness for C8 on a fresh manager over a failing device. -/
theorem c8_chunk_creation_failure_witness :
    ((VEMemoryManager.new devCreateFails).bind_buffer_memory 0 4).2
      = .error .chunkCreationFailed :=
  (c8_chunk_creation_failure _ 0 4 (by decide) (by decide)).1

end VEngine

namespace VEngine

/-! ### First-fit characterization of the scan and the chunk query -/

theorem scan_chunks_first (size : Nat) (cs : List VEMemoryChunk) (i : Nat)
    (ci : VEMemoryChunk) (offset : Nat)
    (hi : cs.get? i = some ci)
    (hfirst : ∀ j cj, j < i → cs.get? j = some cj →
      cj.find_free_memory_offset size = none)
    (hoff : ci.find_free_memory_offset size = some offset) :
    VEMemoryManager.scan_chunks size cs = some (i, offset) := by
  induction cs generalizing i with
  | nil => simp at hi
  | cons c rest ih =>
    cases i with
    | zero =>
      simp only [List.get?] at hi
      injection hi with hi
      subst hi
      simp [VEMemoryManager.scan_chunks, hoff]
    | succ n =>
      have hc0 : c.find_free_memory_offset size = none :=
        hfirst 0 c (Nat.succ_pos n) rfl
      have hrec := ih n (by simpa using hi)
        (fun j cj hj hg => hfirst (j + 1) cj (Nat.succ_lt_succ hj) (by simpa using hg))
      simp [VEMemoryManager.scan_chunks, hc0, hrec]

theorem range_find?_min (p : Nat → Bool) (n x : Nat)
    (h : (List.range n).find? p = some x) :
    p x = true ∧ ∀ y, y < x → p y = false := by
  induction n with
  | zero => simp [List.range_zero] at h
  | succ k ih =>
    rw [List.range_succ, List.find?_append] at h
    cases hk : (List.range k).find? p with
    | some z =>
      rw [hk] at h
      simp only [Option.or] at h
      injection h with h
      subst h
      exact ih hk
    | none =>
      rw [hk] at h
      simp only [Option.or] at h
      have hall : ∀ y ∈ List.range k, ¬ p y = true := List.find?_eq_none.1 hk
      by_cases hpk : p k = true
      · simp only [List.find?, hpk] at h
        injection h with h
        subst h
        refine ⟨hpk, fun y hy => ?_⟩
        exact Bool.eq_false_iff.2 (hall y (List.mem_range.2 hy))
      · simp only [List.find?, Bool.eq_false_iff.2 hpk] at h
        exact absurd h (by simp)

theorem find_free_memory_offset_spec (c : VEMemoryChunk) (size offset : Nat)
    (h : c.find_free_memory_offset size = some offset) :
    offset + size ≤ c.capacity ∧ c.range_free offset size = true ∧
    ∀ o, o < offset →
      (decide (o + size ≤ c.capacity) && c.range_free o size) = false := by
  have hmin := range_find?_min _ _ _ h
  have h1 := hmin.1
  rw [Bool.and_eq_true] at h1
  exact ⟨of_decide_eq_true h1.1, h1.2, hmin.2⟩

theorem range_free_disjoint (c : VEMemoryChunk) (offset size : Nat)
    (h : c.range_free offset size = true) :
    ∀ a ∈ c.allocations, offset + size ≤ a.offset ∨ a.offset + a.size ≤ offset := by
  intro a ha
  unfold VEMemoryChunk.range_free at h
  rw [List.all_eq_true] at h
  simpa using h a ha

theorem find_free_scan_hit (m : VEMemoryManager) (t size i offset : Nat)
    (h : VEMemoryManager.scan_chunks size (m.chunks_for t) = some (i, offset)) :
    m.find_free t size = (m.ensure_key t, .ok (i, offset)) := by
  simp only [VEMemoryManager.find_free, chunks_for_ensure_key, h]

theorem chunks_for_mk_ensure (m : VEMemoryManager) (t t2 : Nat) (d : VEDevice)
    (k : Nat) (b : Bool) :
    VEMemoryManager.chunks_for ⟨d, (m.ensure_key t).chunks, k, b⟩ t2
      = m.chunks_for t2 := by
  have h1 : VEMemoryManager.chunks_for ⟨d, (m.ensure_key t).chunks, k, b⟩ t2
      = (m.ensure_key t).chunks_for t2 := rfl
  rw [h1, chunks_for_ensure_key]

theorem find_free_create_ok (m : VEMemoryManager) (t size : Nat)
    (hscan : VEMemoryManager.scan_chunks size (m.chunks_for t) = none)
    (hc : m.device.create_ok = true) :
    m.find_free t size =
      (VEMemoryManager.set_chunks_for
         ⟨m.device, (m.ensure_key t).chunks, m.identifier_counter + 1, m.mapped⟩ t
         (m.chunks_for t ++ [⟨m.identifier_counter + 1, t, m.device.chunk_capacity, 0, []⟩]),
       .ok ((m.chunks_for t).length, 0)) := by
  simp only [VEMemoryManager.find_free, chunks_for_ensure_key, hscan, VEMemoryChunk.new,
    ensure_key_device, ensure_key_identifier_counter, ensure_key_mapped, hc, if_true,
    chunks_for_mk_ensure]

theorem get?_append_length (xs : List VEMemoryChunk) (y : VEMemoryChunk) :
    (xs ++ [y]).get? xs.length = some y := by
  rw [List.get?_eq_getElem?]
  exact List.getElem?_concat_length xs y

theorem set_append_length (xs : List VEMemoryChunk) (y z : VEMemoryChunk) :
    (xs ++ [y]).set xs.length z = xs ++ [z] := by
  rw [List.set_append]
  simp

end VEngine

namespace VEngine

/-- C2: first-fit bind. When some already-tracked chunk for the requested
memory-type index reports a free offset, bind commits in the first such chunk
(in creation order) at the offset that chunk reports — which is the least
offset that fits and is free — replacing only that chunk's bookkeeping and
appending no chunk; when no tracked chunk qualifies (and the device can
create), bind creates exactly one new chunk, appends it to the end of that
type's list, and commits at offset 0 of the fresh chunk. -/
theorem c2_bind_first_fit (m : VEMemoryManager) (t size : Nat)
    (hbind : m.device.bind_ok = true) :
    (∀ i ci offset,
      (m.chunks_for t).get? i = some ci →
      (∀ j cj, j < i → (m.chunks_for t).get? j = some cj →
        cj.find_free_memory_offset size = none) →
      ci.find_free_memory_offset size = some offset →
      (m.bind_buffer_memory t size).2
          = .ok ⟨ci.chunk_identifier, ci.alloc_counter + 1, offset, size⟩ ∧
      (m.bind_buffer_memory t size).1.chunks_for t
          = (m.chunks_for t).set i
              ⟨ci.chunk_identifier, ci.memory_type_index, ci.capacity,
               ci.alloc_counter + 1,
               ci.allocations ++ [⟨ci.alloc_counter + 1, offset, size⟩]⟩ ∧
      ((m.bind_buffer_memory t size).1.chunks_for t).length
          = (m.chunks_for t).length ∧
      (∀ t2, t2 ≠ t →
        (m.bind_buffer_memory t size).1.chunks_for t2 = m.chunks_for t2) ∧
      offset + size ≤ ci.capacity ∧ ci.range_free offset size = true ∧
      (∀ o, o < offset →
        (decide (o + size ≤ ci.capacity) && ci.range_free o size) = false)) ∧
    ((∀ c ∈ m.chunks_for t, c.find_free_memory_offset size = none) →
      m.device.create_ok = true →
      (m.bind_buffer_memory t size).2 = .ok ⟨m.identifier_counter + 1, 1, 0, size⟩ ∧
      (m.bind_buffer_memory t size).1.chunks_for t
          = m.chunks_for t ++
            [⟨m.identifier_counter + 1, t, m.device.chunk_capacity, 1,
              [⟨1, 0, size⟩]⟩] ∧
      (∀ t2, t2 ≠ t →
        (m.bind_buffer_memory t size).1.chunks_for t2 = m.chunks_for t2)) := by
  constructor
  · intro i ci offset hi hfirst hoff
    have hscan := scan_chunks_first size (m.chunks_for t) i ci offset hi hfirst hoff
    have hff := find_free_scan_hit m t size i offset hscan
    have hi2 : ((m.ensure_key t).chunks_for t).get? i = some ci := by
      rw [chunks_for_ensure_key]; exact hi
    have hbm : VEMemoryChunk.bind_memory (m.ensure_key t).device ci size offset
        = .ok (⟨ci.chunk_identifier, ci.memory_type_index, ci.capacity,
                ci.alloc_counter + 1,
                ci.allocations ++ [⟨ci.alloc_counter + 1, offset, size⟩]⟩,
               ⟨ci.chunk_identifier, ci.alloc_counter + 1, offset, size⟩) := by
      unfold VEMemoryChunk.bind_memory
      rw [ensure_key_device, hbind]
      simp
    have heq : m.bind_buffer_memory t size
        = ((m.ensure_key t).set_chunks_for t
            (((m.ensure_key t).chunks_for t).set i
              ⟨ci.chunk_identifier, ci.memory_type_index, ci.capacity,
               ci.alloc_counter + 1,
               ci.allocations ++ [⟨ci.alloc_counter + 1, offset, size⟩]⟩),
           .ok ⟨ci.chunk_identifier, ci.alloc_counter + 1, offset, size⟩) := by
      unfold VEMemoryManager.bind_buffer_memory
      rw [hff]
      simp only [hi2, hbm]
    have hspec := find_free_memory_offset_spec ci size offset hoff
    have hset : (m.bind_buffer_memory t size).1.chunks_for t
        = (m.chunks_for t).set i
            ⟨ci.chunk_identifier, ci.memory_type_index, ci.capacity,
             ci.alloc_counter + 1,
             ci.allocations ++ [⟨ci.alloc_counter + 1, offset, size⟩]⟩ := by
      rw [heq]
      have hpres := lookup_ensure_key_self m t
      rw [chunks_for_set_chunks_for_self _ t _ hpres, chunks_for_ensure_key]
    refine ⟨by rw [heq], hset, ?_, ?_, hspec.1, hspec.2.1, hspec.2.2⟩
    · rw [hset, List.length_set]
    · intro t2 ht2
      rw [heq]
      rw [chunks_for_set_chunks_for_ne _ t t2 _ ht2, chunks_for_ensure_key]
  · intro hall hcreate
    have hscan : VEMemoryManager.scan_chunks size (m.chunks_for t) = none :=
      scan_chunks_eq_none size _ hall
    have hff := find_free_create_ok m t size hscan hcreate
    set m2 : VEMemoryManager :=
      ⟨m.device, (m.ensure_key t).chunks, m.identifier_counter + 1, m.mapped⟩ with hm2
    set newc : VEMemoryChunk :=
      ⟨m.identifier_counter + 1, t, m.device.chunk_capacity, 0, []⟩ with hnewc
    have hkey2 : (m2.chunks.lookup t).isSome := lookup_ensure_key_self m t
    have hcf1 : (m2.set_chunks_for t (m.chunks_for t ++ [newc])).chunks_for t
        = m.chunks_for t ++ [newc] :=
      chunks_for_set_chunks_for_self m2 t _ hkey2
    have hget : ((m2.set_chunks_for t (m.chunks_for t ++ [newc])).chunks_for t).get?
        (m.chunks_for t).length = some newc := by
      rw [hcf1]
      exact get?_append_length _ _
    have hbm : VEMemoryChunk.bind_memory
        (m2.set_chunks_for t (m.chunks_for t ++ [newc])).device newc size 0
        = .ok (⟨m.identifier_counter + 1, t, m.device.chunk_capacity, 1, [⟨1, 0, size⟩]⟩,
               ⟨m.identifier_counter + 1, 1, 0, size⟩) := by
      unfold VEMemoryChunk.bind_memory
      have hdev : (m2.set_chunks_for t (m.chunks_for t ++ [newc])).device = m.device := rfl
      rw [hdev, hbind]
      simp [hnewc]
    have heq : m.bind_buffer_memory t size
        = ((m2.set_chunks_for t (m.chunks_for t ++ [newc])).set_chunks_for t
            (((m2.set_chunks_for t (m.chunks_for t ++ [newc])).chunks_for t).set
              (m.chunks_for t).length
              ⟨m.identifier_counter + 1, t, m.device.chunk_capacity, 1, [⟨1, 0, size⟩]⟩),
           .ok ⟨m.identifier_counter + 1, 1, 0, size⟩) := by
      unfold VEMemoryManager.bind_buffer_memory
      rw [hff]
      simp only [hget, hbm]
    have hkey3 : (((m2.set_chunks_for t (m.chunks_for t ++ [newc])).chunks).lookup t).isSome := by
      rw [lookup_set_chunks_for_self m2 t _ hkey2]
      rfl
    refine ⟨by rw [heq], ?_, ?_⟩
    · rw [heq]
      rw [chunks_for_set_chunks_for_self _ t _ hkey3, hcf1, set_append_length]
    · intro t2 ht2
      rw [heq]
      rw [chunks_for_set_chunks_for_ne _ t t2 _ ht2,
        chunks_for_set_chunks_for_ne m2 t t2 _ ht2]
      exact chunks_for_mk_ensure m t t2 m.device (m.identifier_counter + 1) m.mapped

/-- Witness for C2: on a fresh manager the no-chunk branch creates chunk 1 and
binds at offset 0; from the resulting state, a second request finds chunk 1
first with free offset 4. -/
theorem c2_bind_first_fit_witness :
    ((VEMemoryManager.new devAllOk).bind_buffer_memory 0 4).2 = .ok ⟨1, 1, 0, 4⟩ ∧
    ((run_ops devAllOk [.bindBuffer 0 4]).bind_buffer_memory 0 4).2
      = .ok ⟨1, 2, 4, 4⟩ := by
  constructor
  · exact ((c2_bind_first_fit (VEMemoryManager.new devAllOk) 0 4 (by decide)).2
      (by decide) (by decide)).1
  · exact (((c2_bind_first_fit (run_ops devAllOk [.bindBuffer 0 4]) 0 4 (by decide)).1
      0 ⟨1, 0, 16, 1, [⟨1, 0, 4⟩]⟩ 4 (by decide)
      (fun j cj hj hg => absurd hj (by simp)) (by decide)).1)

end VEngine

namespace VEngine

/-! ### The non-overlap invariant (C7) -/

theorem lookup_mem (l : List (Nat × List VEMemoryChunk)) (t : Nat)
    (cs : List VEMemoryChunk) (h : l.lookup t = some cs) : (t, cs) ∈ l := by
  induction l with
  | nil => simp [List.lookup] at h
  | cons p rest ih =>
    obtain ⟨k, v⟩ := p
    cases hk : t == k with
    | true =>
      simp only [List.lookup, hk] at h
      injection h with h
      subst h
      have ht : t = k := by simpa using hk
      subst ht
      exact List.mem_cons_self _ _
    | false =>
      simp only [List.lookup, hk] at h
      exact List.mem_cons_of_mem _ (ih h)

theorem chunks_for_wf (m : VEMemoryManager) (t : Nat) (hw : manager_wf m) :
    ∀ c ∈ m.chunks_for t, chunk_wf c := by
  intro c hc
  unfold VEMemoryManager.chunks_for at hc
  cases hl : m.chunks.lookup t with
  | none => rw [hl] at hc; simp at hc
  | some cs =>
    rw [hl] at hc
    simp only [Option.getD_some] at hc
    exact hw (t, cs) (lookup_mem m.chunks t cs hl) c hc

theorem manager_wf_of_chunks_eq (m m2 : VEMemoryManager) (h : m2.chunks = m.chunks)
    (hw : manager_wf m) : manager_wf m2 := by
  unfold manager_wf at hw ⊢
  rw [h]
  exact hw

theorem ensure_key_preserves_wf (m : VEMemoryManager) (t : Nat) (hw : manager_wf m) :
    manager_wf (m.ensure_key t) := by
  unfold VEMemoryManager.ensure_key
  split
  · exact hw
  · intro p hp c hc
    rcases List.mem_append.1 hp with h1 | h1
    · exact hw p h1 c hc
    · simp at h1
      subst h1
      simp at hc

theorem manager_wf_set_chunks_for (m : VEMemoryManager) (t : Nat)
    (cs : List VEMemoryChunk) (hw : manager_wf m) (hcs : ∀ c ∈ cs, chunk_wf c) :
    manager_wf (m.set_chunks_for t cs) := by
  intro p hp c hc
  obtain ⟨q, hq, hfq⟩ := List.mem_map.1 hp
  by_cases hqt : q.1 = t
  · rw [if_pos hqt] at hfq
    subst hfq
    exact hcs c hc
  · rw [if_neg hqt] at hfq
    subst hfq
    exact hw q hq c hc

theorem scan_chunks_some_spec (size : Nat) (cs : List VEMemoryChunk) (i offset : Nat)
    (h : VEMemoryManager.scan_chunks size cs = some (i, offset)) :
    ∃ ci, cs.get? i = some ci ∧ ci.find_free_memory_offset size = some offset := by
  induction cs generalizing i with
  | nil => simp [VEMemoryManager.scan_chunks] at h
  | cons c rest ih =>
    unfold VEMemoryManager.scan_chunks at h
    cases hc : c.find_free_memory_offset size with
    | some off2 =>
      rw [hc] at h
      simp only [Option.some.injEq, Prod.mk.injEq] at h
      obtain ⟨hi, hoff⟩ := h
      subst hi
      subst hoff
      exact ⟨c, rfl, hc⟩
    | none =>
      rw [hc] at h
      cases hr : VEMemoryManager.scan_chunks size rest with
      | none => rw [hr] at h; exact absurd h (by simp)
      | some p =>
        obtain ⟨q1, q2⟩ := p
        rw [hr] at h
        simp only [Option.map_some', Option.some.injEq, Prod.mk.injEq] at h
        obtain ⟨hi, hoff⟩ := h
        subst hi
        subst hoff
        obtain ⟨ci, hget, hoffc⟩ := ih q1 hr
        exact ⟨ci, by simpa using hget, hoffc⟩

theorem bind_memory_ok (device : VEDevice) (c : VEMemoryChunk) (size offset : Nat)
    (c2 : VEMemoryChunk) (a : VESingleAllocation)
    (h : VEMemoryChunk.bind_memory device c size offset = .ok (c2, a)) :
    c2 = ⟨c.chunk_identifier, c.memory_type_index, c.capacity, c.alloc_counter + 1,
          c.allocations ++ [⟨c.alloc_counter + 1, offset, size⟩]⟩ := by
  unfold VEMemoryChunk.bind_memory at h
  cases hb : device.bind_ok with
  | true =>
    rw [hb] at h
    simp only [if_true] at h
    injection h with h
    exact (congrArg Prod.fst h).symm
  | false =>
    rw [hb] at h
    exact absurd h (by simp)

theorem chunk_wf_bind (c : VEMemoryChunk) (size offset : Nat)
    (hwf : chunk_wf c) (hfree : c.range_free offset size = true) :
    chunk_wf ⟨c.chunk_identifier, c.memory_type_index, c.capacity, c.alloc_counter + 1,
              c.allocations ++ [⟨c.alloc_counter + 1, offset, size⟩]⟩ := by
  unfold chunk_wf
  rw [List.pairwise_append]
  refine ⟨hwf, by simp, ?_⟩
  intro a ha b hb
  simp only [List.mem_singleton] at hb
  subst hb
  exact Or.symm (range_free_disjoint c offset size hfree a ha)

theorem map_chunks (m : VEMemoryManager) (a : VESingleAllocation) :
    (m.map a).1.chunks = m.chunks := by
  unfold VEMemoryManager.map
  cases hm : m.mapped with
  | true => rfl
  | false =>
    cases hfc : m.find_chunk a.chunk_identifier with
    | some c => rfl
    | none => rfl

theorem unmap_chunks (m : VEMemoryManager) (a : VESingleAllocation) :
    (m.unmap a).1.chunks = m.chunks := by
  unfold VEMemoryManager.unmap
  cases hfc : m.find_chunk a.chunk_identifier with
  | some c => rfl
  | none => rfl

theorem free_in_list_wf (cid aid : Nat) (cs cs2 : List VEMemoryChunk)
    (h : VEMemoryManager.free_in_list cid aid cs = some cs2)
    (hw : ∀ c ∈ cs, chunk_wf c) : ∀ c ∈ cs2, chunk_wf c := by
  induction cs generalizing cs2 with
  | nil => simp [VEMemoryManager.free_in_list] at h
  | cons c rest ih =>
    by_cases hc : c.chunk_identifier = cid
    · simp only [VEMemoryManager.free_in_list, if_pos hc, Option.some.injEq] at h
      subst h
      intro c3 hc3
      rcases List.mem_cons.1 hc3 with h1 | h1
      · subst h1
        exact List.Pairwise.sublist (List.filter_sublist _)
          (hw c (List.mem_cons_self _ _))
      · exact hw c3 (List.mem_cons_of_mem _ h1)
    · simp only [VEMemoryManager.free_in_list, if_neg hc] at h
      cases hr : VEMemoryManager.free_in_list cid aid rest with
      | none => rw [hr] at h; exact absurd h (by simp)
      | some cs3 =>
        rw [hr] at h
        simp only [Option.map_some', Option.some.injEq] at h
        subst h
        intro c3 hc3
        rcases List.mem_cons.1 hc3 with h1 | h1
        · rw [h1]
          exact hw c (List.mem_cons_self _ _)
        · exact ih cs3 hr (fun c4 hc4 => hw c4 (List.mem_cons_of_mem _ hc4)) c3 h1

theorem free_in_lists_wf (cid aid : Nat) (l l2 : List (Nat × List VEMemoryChunk))
    (h : VEMemoryManager.free_in_lists cid aid l = some l2)
    (hw : ∀ p ∈ l, ∀ c ∈ p.2, chunk_wf c) : ∀ p ∈ l2, ∀ c ∈ p.2, chunk_wf c := by
  induction l generalizing l2 with
  | nil => simp [VEMemoryManager.free_in_lists] at h
  | cons p rest ih =>
    obtain ⟨t, cs⟩ := p
    cases hfl : VEMemoryManager.free_in_list cid aid cs with
    | some cs2 =>
      simp only [VEMemoryManager.free_in_lists, hfl, Option.some.injEq] at h
      subst h
      intro q hq c hc
      rcases List.mem_cons.1 hq with h1 | h1
      · subst h1
        exact free_in_list_wf cid aid cs cs2 hfl
          (fun c2 hc2 => hw (t, cs) (List.mem_cons_self _ _) c2 hc2) c hc
      · exact hw q (List.mem_cons_of_mem _ h1) c hc
    | none =>
      simp only [VEMemoryManager.free_in_lists, hfl] at h
      cases hr : VEMemoryManager.free_in_lists cid aid rest with
      | none => rw [hr] at h; exact absurd h (by simp)
      | some l3 =>
        rw [hr] at h
        simp only [Option.map_some', Option.some.injEq] at h
        subst h
        intro q hq c hc
        rcases List.mem_cons.1 hq with h1 | h1
        · subst h1
          exact hw (t, cs) (List.mem_cons_self _ _) c hc
        · exact ih l3 hr (fun q2 hq2 => hw q2 (List.mem_cons_of_mem _ hq2)) q h1 c hc

theorem free_preserves_wf (m : VEMemoryManager) (a : VESingleAllocation)
    (hw : manager_wf m) : manager_wf (m.free_allocation a).1 := by
  cases hfl : VEMemoryManager.free_in_lists a.chunk_identifier a.alloc_identifier
      m.chunks with
  | none => rw [free_allocation_of_none m a hfl]; exact hw
  | some chs =>
    rw [free_allocation_of_some m a chs hfl]
    intro p hp c hc
    exact free_in_lists_wf _ _ _ _ hfl hw p hp c hc

end VEngine

namespace VEngine

theorem bind_preserves_wf (m : VEMemoryManager) (t size : Nat) (hw : manager_wf m) :
    manager_wf (m.bind_buffer_memory t size).1 := by
  have hwe : manager_wf (m.ensure_key t) := ensure_key_preserves_wf m t hw
  cases hscan : VEMemoryManager.scan_chunks size (m.chunks_for t) with
  | some io =>
    obtain ⟨i, offset⟩ := io
    have hff := find_free_scan_hit m t size i offset hscan
    obtain ⟨ci, hget, hoff⟩ := scan_chunks_some_spec size (m.chunks_for t) i offset hscan
    have hget2 : ((m.ensure_key t).chunks_for t).get? i = some ci := by
      rw [chunks_for_ensure_key]
      exact hget
    unfold VEMemoryManager.bind_buffer_memory
    rw [hff]
    simp only [hget2]
    cases hbm : VEMemoryChunk.bind_memory (m.ensure_key t).device ci size offset with
    | error e => exact hwe
    | ok ca =>
      obtain ⟨c2, a⟩ := ca
      refine manager_wf_set_chunks_for _ t _ hwe (fun c hc => ?_)
      rcases List.mem_or_eq_of_mem_set hc with h1 | h1
      · exact chunks_for_wf _ t hwe c h1
      · rw [h1, bind_memory_ok _ _ _ _ _ _ hbm]
        have hci : ci ∈ (m.ensure_key t).chunks_for t := List.get?_mem hget2
        exact chunk_wf_bind ci size offset (chunks_for_wf _ t hwe ci hci)
          (find_free_memory_offset_spec ci size offset hoff).2.1
  | none =>
    cases hcr : m.device.create_ok with
    | false =>
      have hff := find_free_create_fail m t size hcr hscan
      unfold VEMemoryManager.bind_buffer_memory
      rw [hff]
      exact manager_wf_of_chunks_eq (m.ensure_key t) _ rfl hwe
    | true =>
      have hff := find_free_create_ok m t size hscan hcr
      set newc : VEMemoryChunk :=
        ⟨m.identifier_counter + 1, t, m.device.chunk_capacity, 0, []⟩ with hnewc
      set m2 : VEMemoryManager :=
        ⟨m.device, (m.ensure_key t).chunks, m.identifier_counter + 1, m.mapped⟩ with hm2
      have hw2 : manager_wf m2 := manager_wf_of_chunks_eq (m.ensure_key t) _ rfl hwe
      have hwcs : ∀ c ∈ m.chunks_for t ++ [newc], chunk_wf c := by
        intro c hc
        rcases List.mem_append.1 hc with h1 | h1
        · exact chunks_for_wf m t hw c h1
        · simp only [List.mem_singleton] at h1
          rw [h1, hnewc]
          simp [chunk_wf]
      have hw3 : manager_wf (m2.set_chunks_for t (m.chunks_for t ++ [newc])) :=
        manager_wf_set_chunks_for m2 t _ hw2 hwcs
      have hkey2 : (m2.chunks.lookup t).isSome := lookup_ensure_key_self m t
      have hcf1 : (m2.set_chunks_for t (m.chunks_for t ++ [newc])).chunks_for t
          = m.chunks_for t ++ [newc] := chunks_for_set_chunks_for_self m2 t _ hkey2
      have hget : ((m2.set_chunks_for t (m.chunks_for t ++ [newc])).chunks_for t).get?
          (m.chunks_for t).length = some newc := by
        rw [hcf1]
        exact get?_append_length _ _
      unfold VEMemoryManager.bind_buffer_memory
      rw [hff]
      simp only [hget]
      cases hbm : VEMemoryChunk.bind_memory
          (m2.set_chunks_for t (m.chunks_for t ++ [newc])).device newc size 0 with
      | error e => exact hw3
      | ok ca =>
        obtain ⟨c2, a⟩ := ca
        refine manager_wf_set_chunks_for _ t _ hw3 (fun c hc => ?_)
        rcases List.mem_or_eq_of_mem_set hc with h1 | h1
        · rw [hcf1] at h1
          exact hwcs c h1
        · rw [h1, bind_memory_ok _ _ _ _ _ _ hbm]
          refine chunk_wf_bind newc size 0 ?_ ?_
          · rw [hnewc]
            simp [chunk_wf]
          · rw [hnewc]
            simp [VEMemoryChunk.range_free]

theorem step_preserves_wf (m : VEMemoryManager) (op : MMOp) (hw : manager_wf m) :
    manager_wf (step m op) := by
  cases op with
  | bindBuffer t s => exact bind_preserves_wf m t s hw
  | bindImage t s => exact bind_preserves_wf m t s hw
  | mapOp a => exact manager_wf_of_chunks_eq m _ (map_chunks m a) hw
  | unmapOp a => exact manager_wf_of_chunks_eq m _ (unmap_chunks m a) hw
  | freeOp a => exact free_preserves_wf m a hw

theorem manager_wf_run (device : VEDevice) (ops : List MMOp) :
    manager_wf (run_ops device ops) := by
  have hstep : ∀ (l : List MMOp) (m : VEMemoryManager), manager_wf m →
      manager_wf (l.foldl step m) := by
    intro l
    induction l with
    | nil => intro m hm; exact hm
    | cons op rest ih =>
      intro m hm
      exact ih _ (step_preserves_wf m op hm)
  exact hstep ops _ (fun p hp => absurd hp (List.not_mem_nil p))

/-- C7: in every reachable pool state, however the binds, maps, unmaps and
frees were interleaved, the byte ranges of the live sub-allocations tracked
inside any single chunk are pairwise non-overlapping. -/
theorem c7_live_allocations_disjoint (device : VEDevice) (m : VEMemoryManager)
    (h : Reachable device m) (t : Nat) (c : VEMemoryChunk)
    (hc : c ∈ m.chunks_for t) :
    c.allocations.Pairwise ranges_disjoint := by
  obtain ⟨ops, hops⟩ := h
  rw [← hops] at hc
  exact chunks_for_wf _ t (manager_wf_run device ops) c hc

/-- Witness for C7 at the state reached by two binds into one chunk. -/
theorem c7_live_allocations_disjoint_witness :
    (⟨1, 0, 16, 2, [⟨1, 0, 4⟩, ⟨2, 4, 4⟩]⟩ : VEMemoryChunk).allocations.Pairwise
      ranges_disjoint :=
  c7_live_allocations_disjoint devAllOk
    (run_ops devAllOk [.bindBuffer 0 4, .bindBuffer 0 4])
    ⟨[.bindBuffer 0 4, .bindBuffer 0 4], rfl⟩ 0
    ⟨1, 0, 16, 2, [⟨1, 0, 4⟩, ⟨2, 4, 4⟩]⟩ (by decide)

end VEngine

namespace VEngine

/-! ### The identifier bookkeeping invariant (C9) -/

theorem lookup_none_not_mem_keys (l : List (Nat × List VEMemoryChunk)) (t : Nat)
    (h : l.lookup t = none) : t ∉ l.map Prod.fst := by
  induction l with
  | nil => simp
  | cons p rest ih =>
    obtain ⟨k, v⟩ := p
    cases hk : t == k with
    | true => simp [List.lookup, hk] at h
    | false =>
      simp only [List.lookup, hk] at h
      have hne : ¬ t = k := by simpa using hk
      simp [hne, ih h]

theorem mem_keys_nodup_lookup (l : List (Nat × List VEMemoryChunk))
    (p : Nat × List VEMemoryChunk) (hp : p ∈ l)
    (hnd : (l.map Prod.fst).Nodup) : l.lookup p.1 = some p.2 := by
  induction l with
  | nil => simp at hp
  | cons q rest ih =>
    obtain ⟨k, v⟩ := q
    rw [List.map_cons, List.nodup_cons] at hnd
    rcases List.mem_cons.1 hp with h1 | h1
    · subst h1
      simp [List.lookup]
    · have hk : ¬ p.1 = k := by
        intro he
        exact hnd.1 (by rw [← he]; exact List.mem_map.2 ⟨p, h1, rfl⟩)
      have hbeq : (p.1 == k) = false := by simpa using hk
      simp only [List.lookup, hbeq]
      exact ih h1 hnd.2

theorem map_replace_id {α : Type} (v : List (Nat × α)) (t : Nat) (X : α)
    (hpoint : ∀ w, (t, w) ∈ v → w = X) :
    (v.map fun q => if q.1 = t then (t, X) else q) = v := by
  induction v with
  | nil => rfl
  | cons q rest ih =>
    obtain ⟨k, w⟩ := q
    simp only [List.map]
    congr 1
    · by_cases hk : k = t
      · have hw : w = X := hpoint w (by rw [← hk]; exact List.mem_cons_self _ _)
        rw [if_pos hk, hk, hw]
      · rw [if_neg hk]
    · exact ih fun w2 hw2 => hpoint w2 (List.mem_cons_of_mem _ hw2)

theorem set_map_same {α β : Type} (f : α → β) (l : List α) (i : Nat) (x y : α)
    (hget : l.get? i = some x) (hf : f y = f x) :
    (l.set i y).map f = l.map f := by
  induction l generalizing i with
  | nil => simp at hget
  | cons a rest ih =>
    cases i with
    | zero =>
      simp only [List.get?] at hget
      injection hget with hget
      subst hget
      rw [List.set_cons_zero]
      simp [hf]
    | succ n =>
      simp only [List.get?] at hget
      rw [List.set_cons_succ]
      simp [ih n hget]

theorem sig_view_keys (m : VEMemoryManager) :
    (sig_view m).map Prod.fst = m.chunks.map Prod.fst := by
  unfold sig_view
  rw [List.map_map]
  rfl

theorem set_chunks_for_keys (m : VEMemoryManager) (t : Nat) (cs : List VEMemoryChunk) :
    (m.set_chunks_for t cs).chunks.map Prod.fst = m.chunks.map Prod.fst := by
  show ((m.chunks.map fun p => if p.1 = t then (t, cs) else p).map Prod.fst)
      = m.chunks.map Prod.fst
  rw [List.map_map]
  apply List.map_congr_left
  intro p hp
  by_cases hpt : p.1 = t <;> simp [Function.comp, hpt]

theorem sig_view_set_chunks (m : VEMemoryManager) (t : Nat) (cs : List VEMemoryChunk) :
    sig_view (m.set_chunks_for t cs)
      = (sig_view m).map fun q => if q.1 = t then (t, cs.map chunk_sig) else q := by
  unfold sig_view
  show ((m.chunks.map fun p => if p.1 = t then (t, cs) else p).map
      fun p => (p.1, p.2.map chunk_sig))
    = (m.chunks.map fun p => (p.1, p.2.map chunk_sig)).map
        fun q => if q.1 = t then (t, cs.map chunk_sig) else q
  rw [List.map_map, List.map_map]
  apply List.map_congr_left
  intro p hp
  by_cases hpt : p.1 = t <;> simp [Function.comp, hpt]

theorem sig_entry_unique (m : VEMemoryManager) (t : Nat)
    (hnd : (m.chunks.map Prod.fst).Nodup) :
    ∀ w, (t, w) ∈ sig_view m → w = (m.chunks_for t).map chunk_sig := by
  intro w hw
  obtain ⟨p, hp, hfp⟩ := List.mem_map.1 hw
  have hp1 : p.1 = t := congrArg Prod.fst hfp
  have hp2 : p.2.map chunk_sig = w := congrArg Prod.snd hfp
  have hl := mem_keys_nodup_lookup m.chunks p hp hnd
  rw [hp1] at hl
  unfold VEMemoryManager.chunks_for
  rw [hl]
  simp only [Option.getD_some]
  exact hp2.symm

theorem id_inv_of_sig_eq (m m2 : VEMemoryManager) (hs : sig_view m2 = sig_view m)
    (hk : m2.identifier_counter = m.identifier_counter) (h : id_inv m) : id_inv m2 := by
  unfold id_inv
  rw [hs, hk]
  exact h

theorem sig_view_set_chunks_id (m : VEMemoryManager) (t : Nat)
    (cs : List VEMemoryChunk) (hnd : (m.chunks.map Prod.fst).Nodup)
    (heq : cs.map chunk_sig = (m.chunks_for t).map chunk_sig) :
    sig_view (m.set_chunks_for t cs) = sig_view m := by
  rw [sig_view_set_chunks, heq, map_replace_id]
  exact sig_entry_unique m t hnd

theorem id_inv_sig_append_empty (v : List (Nat × List (Nat × Nat))) (counter t : Nat)
    (h : id_inv_sig v counter) (hkey : t ∉ v.map Prod.fst) :
    id_inv_sig (v ++ [(t, [])]) counter := by
  obtain ⟨h1, h2, h3, h4, h5⟩ := h
  refine ⟨?_, ?_, ?_, ?_, ?_⟩
  · rw [List.map_append, List.nodup_append]
    refine ⟨h1, List.nodup_singleton _, ?_⟩
    intro x hx hx2
    simp only [List.map_cons, List.map_nil, List.mem_singleton] at hx2
    subst hx2
    exact hkey hx
  · intro q hq s hs
    rcases List.mem_append.1 hq with h6 | h6
    · exact h2 q h6 s hs
    · simp only [List.mem_singleton] at h6
      subst h6
      simp at hs
  · rw [List.flatMap_append]
    simpa using h3
  · intro q hq
    rcases List.mem_append.1 hq with h6 | h6
    · exact h4 q h6
    · simp only [List.mem_singleton] at h6
      subst h6
      simp
  · intro q hq s hs
    rcases List.mem_append.1 hq with h6 | h6
    · exact h5 q h6 s hs
    · simp only [List.mem_singleton] at h6
      subst h6
      simp at hs

end VEngine

namespace VEngine

theorem nodup_insert_big (A R : List Nat) (K : Nat)
    (hnd : (A ++ R).Nodup) (hA : ∀ x ∈ A, x < K) (hR : ∀ x ∈ R, x < K) :
    (A ++ [K] ++ R).Nodup := by
  rw [List.append_assoc, List.singleton_append]
  rw [List.nodup_append] at hnd ⊢
  obtain ⟨hA1, hR1, hdisj⟩ := hnd
  refine ⟨hA1, ?_, ?_⟩
  · rw [List.nodup_cons]
    exact ⟨fun hKR => absurd (hR K hKR) (lt_irrefl K), hR1⟩
  · intro x hx hx2
    rcases List.mem_cons.1 hx2 with h1 | h1
    · subst h1
      exact absurd (hA x hx) (lt_irrefl x)
    · exact hdisj hx h1

theorem mem_flat_replace (rest : List (Nat × List (Nat × Nat))) (K t : Nat)
    (old : List (Nat × Nat))
    (hpoint : ∀ w, (t, w) ∈ rest → w = old) (x : Nat)
    (hx : x ∈ (rest.map fun q =>
        if q.1 = t then (t, old ++ [(K, t)]) else q).flatMap fun q => q.2.map Prod.fst) :
    x ∈ (rest.flatMap fun q => q.2.map Prod.fst) ∨ x = K := by
  rw [List.flatMap_map] at hx
  obtain ⟨q, hq, hxq⟩ := List.mem_flatMap.1 hx
  by_cases hqt : q.1 = t
  · simp only [Function.comp, if_pos hqt] at hxq
    have hold : q.2 = old := hpoint q.2 (by rw [← hqt]; exact hq)
    rw [List.map_append] at hxq
    rcases List.mem_append.1 hxq with h1 | h1
    · left
      rw [← hold] at h1
      exact List.mem_flatMap.2 ⟨q, hq, h1⟩
    · right
      simpa using h1
  · simp only [Function.comp, if_neg hqt] at hxq
    exact Or.inl (List.mem_flatMap.2 ⟨q, hq, hxq⟩)

theorem nodup_flat_append_new (v : List (Nat × List (Nat × Nat))) (K t : Nat)
    (old : List (Nat × Nat))
    (hkeys : (v.map Prod.fst).Nodup)
    (hnd : (v.flatMap fun q => q.2.map Prod.fst).Nodup)
    (hlt : ∀ q ∈ v, ∀ s ∈ q.2, s.1 < K)
    (hpoint : ∀ w, (t, w) ∈ v → w = old) :
    ((v.map fun q => if q.1 = t then (t, old ++ [(K, t)]) else q).flatMap
      fun q => q.2.map Prod.fst).Nodup := by
  induction v with
  | nil => simp
  | cons q rest ih =>
    obtain ⟨kq, w⟩ := q
    rw [List.map_cons, List.nodup_cons] at hkeys
    rw [List.flatMap_cons, List.nodup_append] at hnd
    obtain ⟨hndw, hndrest, hdisj⟩ := hnd
    have hpoint2 : ∀ w2, (t, w2) ∈ rest → w2 = old :=
      fun w2 hw2 => hpoint w2 (List.mem_cons_of_mem _ hw2)
    have hlt2 : ∀ q ∈ rest, ∀ s ∈ q.2, s.1 < K :=
      fun q2 hq2 s hs => hlt q2 (List.mem_cons_of_mem _ hq2) s hs
    have hltw : ∀ s ∈ w, s.1 < K :=
      fun s hs => hlt (kq, w) (List.mem_cons_self _ _) s hs
    by_cases hkt : kq = t
    · subst hkt
      have hnotin : ∀ w2, (kq, w2) ∈ rest → w2 = old ++ [(K, kq)] := by
        intro w2 hw2
        exact absurd (List.mem_map.2 ⟨(kq, w2), hw2, rfl⟩) hkeys.1
      have hrest_id : (rest.map fun q =>
          if q.1 = kq then (kq, old ++ [(K, kq)]) else q) = rest :=
        map_replace_id rest kq _ hnotin
      rw [List.map_cons, List.flatMap_cons, if_pos rfl, hrest_id]
      have hw_old : w = old := hpoint w (List.mem_cons_self _ _)
      subst hw_old
      rw [List.map_append]
      have hsingle : ([(K, kq)].map Prod.fst) = [K] := rfl
      rw [hsingle]
      refine nodup_insert_big (w.map Prod.fst) _ K (by rw [List.nodup_append]; exact ⟨hndw, hndrest, hdisj⟩) ?_ ?_
      · intro x hx
        obtain ⟨s, hs, hsx⟩ := List.mem_map.1 hx
        rw [← hsx]
        exact hltw s hs
      · intro x hx
        obtain ⟨q2, hq2, hxq⟩ := List.mem_flatMap.1 hx
        obtain ⟨s, hs, hsx⟩ := List.mem_map.1 hxq
        rw [← hsx]
        exact hlt2 q2 hq2 s hs
    · rw [List.map_cons, List.flatMap_cons, if_neg hkt]
      rw [List.nodup_append]
      refine ⟨hndw, ih hkeys.2 hndrest hlt2 hpoint2, ?_⟩
      intro x hx hx2
      rcases mem_flat_replace rest K t old hpoint2 x hx2 with h1 | h1
      · exact hdisj hx h1
      · obtain ⟨s, hs, hsx⟩ := List.mem_map.1 hx
        have hxK : x < K := by rw [← hsx]; exact hltw s hs
        rw [h1] at hxK
        exact absurd hxK (lt_irrefl K)

theorem id_inv_sig_append_new (v : List (Nat × List (Nat × Nat))) (c0 K t : Nat)
    (old : List (Nat × Nat)) (h : id_inv_sig v c0) (hlt : c0 < K)
    (hpoint : ∀ w, (t, w) ∈ v → w = old) :
    id_inv_sig (v.map fun q => if q.1 = t then (t, old ++ [(K, t)]) else q) K := by
  obtain ⟨h1, h2, h3, h4, h5⟩ := h
  have hkeys : ((v.map fun q => if q.1 = t then (t, old ++ [(K, t)]) else q).map Prod.fst)
      = v.map Prod.fst := by
    rw [List.map_map]
    apply List.map_congr_left
    intro q hq
    by_cases hqt : q.1 = t <;> simp [Function.comp, hqt]
  refine ⟨?_, ?_, ?_, ?_, ?_⟩
  · rw [hkeys]
    exact h1
  · intro q hq s hs
    obtain ⟨q0, hq0, hfq⟩ := List.mem_map.1 hq
    by_cases hqt : q0.1 = t
    · rw [if_pos hqt] at hfq
      subst hfq
      rcases List.mem_append.1 hs with h6 | h6
      · have hold : q0.2 = old := hpoint q0.2 (by rw [← hqt]; exact hq0)
        rw [← hold] at h6
        exact le_trans (h2 q0 hq0 s h6) (le_of_lt hlt)
      · simp only [List.mem_singleton] at h6
        subst h6
        exact le_refl K
    · rw [if_neg hqt] at hfq
      subst hfq
      exact le_trans (h2 q0 hq0 s hs) (le_of_lt hlt)
  · exact nodup_flat_append_new v K t old h1 h3
      (fun q hq s hs => lt_of_le_of_lt (h2 q hq s hs) hlt) hpoint
  · intro q hq
    obtain ⟨q0, hq0, hfq⟩ := List.mem_map.1 hq
    by_cases hqt : q0.1 = t
    · rw [if_pos hqt] at hfq
      subst hfq
      have hold : q0.2 = old := hpoint q0.2 (by rw [← hqt]; exact hq0)
      rw [List.map_append]
      have hsingle : ([(K, t)].map Prod.fst) = [K] := rfl
      rw [hsingle, List.pairwise_append]
      refine ⟨by rw [← hold]; exact h4 q0 hq0, by simp, ?_⟩
      intro x hx y hy
      simp only [List.mem_singleton] at hy
      subst hy
      rw [← hold] at hx
      obtain ⟨s, hs, hsx⟩ := List.mem_map.1 hx
      rw [← hsx]
      exact lt_of_le_of_lt (h2 q0 hq0 s hs) hlt
    · rw [if_neg hqt] at hfq
      subst hfq
      exact h4 q0 hq0
  · intro q hq s hs
    obtain ⟨q0, hq0, hfq⟩ := List.mem_map.1 hq
    by_cases hqt : q0.1 = t
    · rw [if_pos hqt] at hfq
      subst hfq
      rcases List.mem_append.1 hs with h6 | h6
      · have hold : q0.2 = old := hpoint q0.2 (by rw [← hqt]; exact hq0)
        rw [← hold] at h6
        rw [h5 q0 hq0 s h6, hqt]
      · simp only [List.mem_singleton] at h6
        rw [h6]
    · rw [if_neg hqt] at hfq
      subst hfq
      exact h5 q0 hq0 s hs

end VEngine

namespace VEngine

theorem map_identifier_counter (m : VEMemoryManager) (a : VESingleAllocation) :
    (m.map a).1.identifier_counter = m.identifier_counter := by
  unfold VEMemoryManager.map
  cases hm : m.mapped with
  | true => rfl
  | false =>
    cases hfc : m.find_chunk a.chunk_identifier with
    | some c => rfl
    | none => rfl

theorem unmap_identifier_counter (m : VEMemoryManager) (a : VESingleAllocation) :
    (m.unmap a).1.identifier_counter = m.identifier_counter := by
  unfold VEMemoryManager.unmap
  cases hfc : m.find_chunk a.chunk_identifier with
  | some c => rfl
  | none => rfl

theorem id_inv_of_eq (m m2 : VEMemoryManager) (hch : m2.chunks = m.chunks)
    (hk : m2.identifier_counter = m.identifier_counter) (h : id_inv m) : id_inv m2 := by
  unfold id_inv sig_view
  rw [hch, hk]
  exact h

theorem id_inv_new (device : VEDevice) : id_inv (VEMemoryManager.new device) :=
  ⟨List.nodup_nil, fun q hq => absurd hq (List.not_mem_nil q), List.nodup_nil,
   fun q hq => absurd hq (List.not_mem_nil q), fun q hq => absurd hq (List.not_mem_nil q)⟩

theorem ensure_key_preserves_id_inv (m : VEMemoryManager) (t : Nat) (h : id_inv m) :
    id_inv (m.ensure_key t) := by
  unfold VEMemoryManager.ensure_key
  split
  · exact h
  · rename_i hnone
    have hn : m.chunks.lookup t = none := by
      cases hl : m.chunks.lookup t with
      | none => rfl
      | some cs => rw [hl] at hnone; simp at hnone
    have hkey : t ∉ m.chunks.map Prod.fst := lookup_none_not_mem_keys m.chunks t hn
    simp only [id_inv, sig_view, List.map_append, List.map_cons, List.map_nil]
    exact id_inv_sig_append_empty (sig_view m) m.identifier_counter t h
      (by rw [sig_view_keys]; exact hkey)

theorem free_preserves_id_inv (m : VEMemoryManager) (a : VESingleAllocation)
    (h : id_inv m) : id_inv (m.free_allocation a).1 := by
  cases hfl : VEMemoryManager.free_in_lists a.chunk_identifier a.alloc_identifier
      m.chunks with
  | none => rw [free_allocation_of_none m a hfl]; exact h
  | some chs =>
    rw [free_allocation_of_some m a chs hfl]
    have hs := free_in_lists_sig a.chunk_identifier a.alloc_identifier m.chunks chs hfl
    show id_inv_sig (chs.map fun p => (p.1, p.2.map chunk_sig)) m.identifier_counter
    rw [hs]
    exact h

theorem bind_preserves_id_inv (m : VEMemoryManager) (t size : Nat) (h : id_inv m) :
    id_inv (m.bind_buffer_memory t size).1 := by
  have he : id_inv (m.ensure_key t) := ensure_key_preserves_id_inv m t h
  have hekeys : ((m.ensure_key t).chunks.map Prod.fst).Nodup := by
    rw [← sig_view_keys]
    exact he.1
  cases hscan : VEMemoryManager.scan_chunks size (m.chunks_for t) with
  | some io =>
    obtain ⟨i, offset⟩ := io
    have hff := find_free_scan_hit m t size i offset hscan
    obtain ⟨ci, hget, hoff⟩ := scan_chunks_some_spec size (m.chunks_for t) i offset hscan
    have hget2 : ((m.ensure_key t).chunks_for t).get? i = some ci := by
      rw [chunks_for_ensure_key]
      exact hget
    unfold VEMemoryManager.bind_buffer_memory
    rw [hff]
    simp only [hget2]
    cases hbm : VEMemoryChunk.bind_memory (m.ensure_key t).device ci size offset with
    | error e => exact he
    | ok ca =>
      obtain ⟨c2, a⟩ := ca
      have hsigc : chunk_sig c2 = chunk_sig ci := by
        rw [bind_memory_ok _ _ _ _ _ _ hbm]
        rfl
      have hmapeq : (((m.ensure_key t).chunks_for t).set i c2).map chunk_sig
          = ((m.ensure_key t).chunks_for t).map chunk_sig :=
        set_map_same chunk_sig _ i ci c2 hget2 hsigc
      exact id_inv_of_sig_eq _ _
        (sig_view_set_chunks_id (m.ensure_key t) t _ hekeys hmapeq) rfl he
  | none =>
    cases hcr : m.device.create_ok with
    | false =>
      have hff := find_free_create_fail m t size hcr hscan
      unfold VEMemoryManager.bind_buffer_memory
      rw [hff]
      obtain ⟨h1, h2, h3, h4, h5⟩ := he
      have hcnt : (m.ensure_key t).identifier_counter = m.identifier_counter :=
        ensure_key_identifier_counter m t
      refine ⟨h1, ?_, h3, h4, h5⟩
      intro q hq s hs
      have hle := h2 q hq s hs
      rw [hcnt] at hle
      exact le_trans hle (Nat.le_succ _)
    | true =>
      have hff := find_free_create_ok m t size hscan hcr
      set newc : VEMemoryChunk :=
        ⟨m.identifier_counter + 1, t, m.device.chunk_capacity, 0, []⟩ with hnewc
      set m2 : VEMemoryManager :=
        ⟨m.device, (m.ensure_key t).chunks, m.identifier_counter + 1, m.mapped⟩ with hm2
      have hm2keys : (m2.chunks.map Prod.fst).Nodup := hekeys
      have hpoint : ∀ w, (t, w) ∈ sig_view m2 →
          w = (m2.chunks_for t).map chunk_sig :=
        sig_entry_unique m2 t hm2keys
      have hcf2 : m2.chunks_for t = m.chunks_for t := chunks_for_mk_ensure m t t _ _ _
      have he2 : id_inv_sig (sig_view m2) m.identifier_counter := by
        have hc := ensure_key_identifier_counter m t
        have he3 : id_inv_sig (sig_view (m.ensure_key t))
            (m.ensure_key t).identifier_counter := he
        rw [hc] at he3
        exact he3
      have hinv1 : id_inv (m2.set_chunks_for t (m.chunks_for t ++ [newc])) := by
        show id_inv_sig (sig_view (m2.set_chunks_for t (m.chunks_for t ++ [newc])))
          (m.identifier_counter + 1)
        rw [sig_view_set_chunks]
        have happ : (m.chunks_for t ++ [newc]).map chunk_sig
            = (m.chunks_for t).map chunk_sig ++ [(m.identifier_counter + 1, t)] := by
          rw [List.map_append]
          rfl
        rw [happ]
        exact id_inv_sig_append_new (sig_view m2) m.identifier_counter
          (m.identifier_counter + 1) t ((m.chunks_for t).map chunk_sig) he2
          (Nat.lt_succ_self _) (fun w hw => by rw [hpoint w hw, hcf2])
      have hkey2 : (m2.chunks.lookup t).isSome := lookup_ensure_key_self m t
      have hcf1 : (m2.set_chunks_for t (m.chunks_for t ++ [newc])).chunks_for t
          = m.chunks_for t ++ [newc] := chunks_for_set_chunks_for_self m2 t _ hkey2
      have hget : ((m2.set_chunks_for t (m.chunks_for t ++ [newc])).chunks_for t).get?
          (m.chunks_for t).length = some newc := by
        rw [hcf1]
        exact get?_append_length _ _
      unfold VEMemoryManager.bind_buffer_memory
      rw [hff]
      simp only [hget]
      cases hbm : VEMemoryChunk.bind_memory
          (m2.set_chunks_for t (m.chunks_for t ++ [newc])).device newc size 0 with
      | error e => exact hinv1
      | ok ca =>
        obtain ⟨c2, a⟩ := ca
        have hsigc : chunk_sig c2 = chunk_sig newc := by
          rw [bind_memory_ok _ _ _ _ _ _ hbm]
          rfl
        have hmapeq : (((m2.set_chunks_for t (m.chunks_for t ++ [newc])).chunks_for t).set
            (m.chunks_for t).length c2).map chunk_sig
            = ((m2.set_chunks_for t (m.chunks_for t ++ [newc])).chunks_for t).map
                chunk_sig :=
          set_map_same chunk_sig _ _ newc c2 hget hsigc
        have hkeys2 : ((m2.set_chunks_for t (m.chunks_for t ++ [newc])).chunks.map
            Prod.fst).Nodup := by
          rw [set_chunks_for_keys]
          exact hm2keys
        exact id_inv_of_sig_eq _ _
          (sig_view_set_chunks_id (m2.set_chunks_for t (m.chunks_for t ++ [newc])) t _
            hkeys2 hmapeq) rfl hinv1

theorem step_preserves_id_inv (m : VEMemoryManager) (op : MMOp) (h : id_inv m) :
    id_inv (step m op) := by
  cases op with
  | bindBuffer t s => exact bind_preserves_id_inv m t s h
  | bindImage t s => exact bind_preserves_id_inv m t s h
  | mapOp a => exact id_inv_of_eq m _ (map_chunks m a) (map_identifier_counter m a) h
  | unmapOp a => exact id_inv_of_eq m _ (unmap_chunks m a) (unmap_identifier_counter m a) h
  | freeOp a => exact free_preserves_id_inv m a h

theorem run_ops_id_inv (device : VEDevice) (ops : List MMOp) :
    id_inv (run_ops device ops) := by
  have hstep : ∀ (l : List MMOp) (m : VEMemoryManager), id_inv m →
      id_inv (l.foldl step m) := by
    intro l
    induction l with
    | nil => intro m hm; exact hm
    | cons op rest ih =>
      intro m hm
      exact ih _ (step_preserves_id_inv m op hm)
  exact hstep ops _ (id_inv_new device)

theorem all_chunks_ids_eq (m : VEMemoryManager) :
    m.all_chunks.map VEMemoryChunk.chunk_identifier
      = (sig_view m).flatMap fun q => q.2.map Prod.fst := by
  unfold VEMemoryManager.all_chunks sig_view
  induction m.chunks with
  | nil => rfl
  | cons p rest ih =>
    rw [List.flatMap_cons, List.map_append, List.map_cons, List.flatMap_cons, ih]
    congr 1
    rw [List.map_map]
    rfl

/-- C9: in every reachable pool state the chunk identifiers of all tracked
chunks are pairwise distinct; within each memory-type list (which is creation
order) the identifiers are strictly increasing, reflecting strictly increasing
issuance; and every chunk stored in the list for memory-type index t carries
memory-type index t. -/
theorem c9_identifier_bookkeeping (device : VEDevice) (m : VEMemoryManager)
    (h : Reachable device m) :
    (m.all_chunks.map VEMemoryChunk.chunk_identifier).Nodup ∧
    (∀ t, ((m.chunks_for t).map VEMemoryChunk.chunk_identifier).Pairwise (· < ·)) ∧
    (∀ t, ∀ c ∈ m.chunks_for t, c.memory_type_index = t) := by
  obtain ⟨ops, hops⟩ := h
  subst hops
  obtain ⟨h1, h2, h3, h4, h5⟩ := run_ops_id_inv device ops
  refine ⟨?_, ?_, ?_⟩
  · rw [all_chunks_ids_eq]
    exact h3
  · intro t
    unfold VEMemoryManager.chunks_for
    cases hl : (run_ops device ops).chunks.lookup t with
    | none => simp
    | some cs =>
      simp only [Option.getD_some]
      have hmem : (t, cs) ∈ (run_ops device ops).chunks := lookup_mem _ t cs hl
      have hmem2 : (t, cs.map chunk_sig) ∈ sig_view (run_ops device ops) :=
        List.mem_map.2 ⟨(t, cs), hmem, rfl⟩
      have := h4 (t, cs.map chunk_sig) hmem2
      rw [List.map_map] at this
      exact this
  · intro t c hc
    unfold VEMemoryManager.chunks_for at hc
    cases hl : (run_ops device ops).chunks.lookup t with
    | none => rw [hl] at hc; simp at hc
    | some cs =>
      rw [hl] at hc
      simp only [Option.getD_some] at hc
      have hmem : (t, cs) ∈ (run_ops device ops).chunks := lookup_mem _ t cs hl
      have hmem2 : (t, cs.map chunk_sig) ∈ sig_view (run_ops device ops) :=
        List.mem_map.2 ⟨(t, cs), hmem, rfl⟩
      exact h5 (t, cs.map chunk_sig) hmem2 (chunk_sig c)
        (List.mem_map.2 ⟨c, hc, rfl⟩)

/-- Witness for C9 at a state with chunks in two memory types. -/
theorem c9_identifier_bookkeeping_witness :
    ((run_ops devAllOk [.bindBuffer 0 4, .bindBuffer 1 4]).all_chunks.map
      VEMemoryChunk.chunk_identifier).Nodup :=
  (c9_identifier_bookkeeping devAllOk _ ⟨[.bindBuffer 0 4, .bindBuffer 1 4], rfl⟩).1

end VEngine
